import Mathlib

/-! kube-update-notifier: image references, tag coercion, registry cache

A shallow embedding of `main.go`: `parseImage`, `imageName.String`,
`tagSemVer`, `registryCache.Get` and the loop of `main2` over the images, with
the few functions of Go's `strings` package they call.

A Go string is modelled as a list of characters (`Str`).  Every separator the
program looks for (`/`, `@`, `:`, `.`, `v`) is an ASCII character, so cutting
a string at the first occurrence of one of them gives the same pieces whether
positions are counted in bytes or in characters.

The imported packages are not part of the repository.  `semver` is modelled
after the spec and the package; the registry transport is a parameter.
-/

namespace KubeUpdateNotifier

/-- A Go `string`. -/
abbrev Str := List Char

/-! ## The functions of package `strings` used by `main.go` -/

/-- Go `strings.Index(s, string(c))` for a one-character separator: the
position of the first `c` in `s`; `none` stands for Go's `-1`. -/
def index (c : Char) : Str → Option Nat
  | [] => none
  | x :: xs => if x = c then some 0 else (index c xs).map (· + 1)

/-- Go `strings.Split(s, string(sep))` for a one-character separator: the
substrings between the separators.  The result is never empty: a string
without separator (the empty string too) gives the one-element list `[s]`. -/
def split (sep : Char) : Str → List Str
  | [] => [[]]
  | x :: xs =>
    if x = sep then [] :: split sep xs
    else (x :: (split sep xs).headD []) :: (split sep xs).tail

/-- Go `strings.ContainsAny(s, chars)`: some character of `s` is in `chars`. -/
def containsAny (s chars : Str) : Bool :=
  s.any (fun c => decide (c ∈ chars))

/-- Go `strings.Count(s, string(c))` for a one-character separator. -/
def count (c : Char) (s : Str) : Nat :=
  List.count c s

/-- Go `strings.TrimPrefix(s, string(c))` for a one-character prefix: `s`
without its first character when that character is `c`, else `s` itself. -/
def trimPrefix (c : Char) : Str → Str
  | [] => []
  | x :: xs => if x = c then xs else x :: xs

/-! ## `imageName`, `parseImage`, `imageName.String` -/

/-- The struct `imageName` of `main.go` (the field `namespace` is written
`namespace_`, the plain word being reserved). -/
structure imageName where
  registry : Str
  namespace_ : Str
  repository : Str
  tag : Str
  digest : Str
  deriving DecidableEq, Repr

/-- Lines 58 to 66 of `parseImage`: the candidate repository is cut at its
first `@` into repository and digest; failing that, at its first `:` into
repository and tag; failing that, the tag is `latest`. -/
def scanRepository (ret : imageName) : imageName :=
  match index '@' ret.repository with
  | some i =>
    { ret with digest := ret.repository.drop (i + 1), repository := ret.repository.take i }
  | none =>
    match index ':' ret.repository with
    | some i =>
      { ret with tag := ret.repository.drop (i + 1), repository := ret.repository.take i }
    | none => { ret with tag := "latest".toList }

/-- The function `parseImage` of `main.go`; `none` is the nil pointer. -/
def parseImage (name : Str) : Option imageName :=
  let names := split '/' name
  let ret : imageName :=
    { registry := [], namespace_ := "library".toList, repository := [], tag := [], digest := [] }
  match names with
  | [n0] => some (scanRepository { ret with repository := n0 })
  | [n0, n1] =>
    if containsAny n0 ":.".toList then
      some (scanRepository { ret with registry := n0, repository := n1 })
    else
      some (scanRepository { ret with namespace_ := n0, repository := n1 })
  | [n0, n1, n2] =>
    some (scanRepository { ret with registry := n0, namespace_ := n1, repository := n2 })
  | _ => none

/-- The method `String` of `imageName`. -/
def imageName.String (i : imageName) : Str :=
  let s : Str := []
  let s := if i.registry ≠ [] then s ++ (i.registry ++ "/".toList) else s
  let s := if i.namespace_ ≠ [] then s ++ (i.namespace_ ++ "/".toList) else s
  let s := s ++ i.repository
  let s :=
    if i.digest ≠ [] then s ++ ("@".toList ++ i.digest)
    else if i.tag ≠ [] then s ++ (":".toList ++ i.tag)
    else s
  s

/-- What `imageName.String` writes after the registry and the namespace: the
repository followed by `@digest`, or else by `:tag`, or else by nothing. -/
def imageName.lastPart (i : imageName) : Str :=
  i.repository ++
    (if i.digest ≠ [] then '@' :: i.digest else if i.tag ≠ [] then ':' :: i.tag else [])

/-! ## Package `semver` (github.com/blang/semver), as far as `tagSemVer` uses it

The package is imported by `main.go` and its source is not part of the
repository.  Its types, constants and functions are modelled here after the
spec's description of the parse and the package's own `Parse`, which the
definitions follow line by line. -/

/-- Modelled from the spec: the struct `semver.PRVersion` of the imported
package, not in `main.go`: one dot-separated pre-release identifier,
numeric (`IsNum`, value in `VersionNum`) or alphanumeric (`VersionStr`). -/
structure PRVersion where
  VersionStr : Str
  VersionNum : Nat
  IsNum : Bool
  deriving DecidableEq, Repr

/-- Modelled from the spec: the struct `semver.Version` of the imported
package, not in `main.go`; the three numbers are `uint64` in Go and are
kept below `2 ^ 64` by `parseUint`. -/
structure Version where
  Major : Nat
  Minor : Nat
  Patch : Nat
  Pre : List PRVersion
  Build : List Str
  deriving DecidableEq, Repr

deriving instance DecidableEq for Except

/-- Which number of a version an error is about. -/
inductive Field where
  | major
  | minor
  | patch
  | prerelease
  | build
  deriving DecidableEq, Repr

/-- The errors `semver.Parse` returns, one constructor per message. -/
inductive ParseError where
  /-- "Version string empty". -/
  | versionEmpty
  /-- "No Major.Minor.Patch elements found". -/
  | noMajorMinorPatch
  /-- "Invalid character(s) found in ... %q". -/
  | invalidCharacters (field : Field) (s : Str)
  /-- "... must not contain leading zeroes %q". -/
  | leadingZeroes (field : Field) (s : Str)
  /-- The error of `strconv.ParseUint` (syntax or range) on `s`. -/
  | numError (s : Str)
  /-- "Prerelease is empty". -/
  | prereleaseEmpty
  /-- "Build meta data is empty". -/
  | buildEmpty
  deriving DecidableEq, Repr

/-- The constant `numbers` of package `semver`. -/
def numbers : Str := "0123456789".toList

/-- The constant `alphas` of package `semver`. -/
def alphas : Str := "abcdefghijklmnopqrstuvwxyzABCDEFGHIJKLMNOPQRSTUVWXYZ-".toList

/-- The constant `alphanum` of package `semver`. -/
def alphanum : Str := alphas ++ numbers

/-- The helper `containsOnly` of package `semver`: every character of `s` is
in `set` (true of the empty string). -/
def containsOnly (s set : Str) : Bool :=
  s.all (fun c => decide (c ∈ set))

/-- The helper `hasLeadingZeroes` of package `semver`:
`len(s) > 1 && s[0] == '0'`. -/
def hasLeadingZeroes : Str → Bool
  | c :: _ :: _ => decide (c = '0')
  | _ => false

/-- The value of a decimal digit, `none` for any other character. -/
def digitValue (c : Char) : Option Nat :=
  if c ∈ numbers then some (c.toNat - 48) else none

/-- The digits of `s` read in base ten onto `acc`; `none` on a non-digit. -/
def parseDigits (acc : Nat) : Str → Option Nat
  | [] => some acc
  | c :: cs =>
    match digitValue c with
    | some d => parseDigits (acc * 10 + d) cs
    | none => none

/-- Go `strconv.ParseUint(s, 10, 64)`: the value of a non-empty string of
decimal digits that fits in 64 bits; `none` stands for its syntax error (empty
string, a character that is no digit) and its range error (`2 ^ 64` or more). -/
def parseUint (s : Str) : Option Nat :=
  if s = [] then none
  else
    match parseDigits 0 s with
    | some n => if n < 2 ^ 64 then some n else none
    | none => none

/-- Go `strings.SplitN(s, string(sep), n)` for a one-character separator and
`n ≥ 0`: at most `n` substrings, the last one the unsplit rest. -/
def splitN (sep : Char) : Nat → Str → List Str
  | 0, _ => []
  | n + 1, s =>
    match n, index sep s with
    | 0, _ => [s]
    | _, none => [s]
    | m + 1, some i => s.take i :: splitN sep (m + 1) (s.drop (i + 1))

/-- The three checks `semver.Parse` makes on each of major, minor and patch:
digits only, no leading zero, then `strconv.ParseUint`. -/
def parseNumber (field : Field) (s : Str) : Except ParseError Nat :=
  if !containsOnly s numbers then .error (.invalidCharacters field s)
  else if hasLeadingZeroes s then .error (.leadingZeroes field s)
  else
    match parseUint s with
    | some n => .ok n
    | none => .error (.numError s)

/-- Modelled from the spec: the function `semver.NewPRVersion` of the imported
package, not in `main.go`, which reads one pre-release identifier: not empty;
a number without leading zero, or letters, digits and `-`. -/
def NewPRVersion (s : Str) : Except ParseError PRVersion :=
  if s = [] then .error .prereleaseEmpty
  else if containsOnly s numbers then
    if hasLeadingZeroes s then .error (.leadingZeroes .prerelease s)
    else
      match parseUint s with
      | some n => .ok { VersionStr := [], VersionNum := n, IsNum := true }
      | none => .error (.numError s)
  else if containsOnly s alphanum then
    .ok { VersionStr := s, VersionNum := 0, IsNum := false }
  else .error (.invalidCharacters .prerelease s)

/-- The check `semver.Parse` makes on one build identifier. -/
def checkBuild (s : Str) : Except ParseError Str :=
  if s = [] then .error .buildEmpty
  else if !containsOnly s alphanum then .error (.invalidCharacters .build s)
  else .ok s

/-- Modelled from the spec: the body of `semver.Parse`, which `tagSemVer`
calls, belongs to the imported package github.com/blang/semver and is not in
`main.go`.  The spec asks for a parse by "semantic-version precedence rules"
with a numeric major, minor and patch and a pre-release/build suffix on the
last component that is "preserved verbatim", and for a failure on a
"non-numeric leading component" or a "malformed suffix".  The definition
follows that package's `Parse`: the string is cut at its first two dots; major
and minor are numbers; the third part is cut at its first `+` (build
identifiers, dot-separated) and then at its first `-` (pre-release
identifiers, dot-separated) and what is left is the patch number. -/
def Parse (s : Str) : Except ParseError Version :=
  if s = [] then .error .versionEmpty
  else
    match splitN '.' 3 s with
    | [p0, p1, p2] => do
      let major ← parseNumber .major p0
      let minor ← parseNumber .minor p1
      let (build, patchStr) :=
        match index '+' p2 with
        | some i => (split '.' (p2.drop (i + 1)), p2.take i)
        | none => (([] : List Str), p2)
      let (prerelease, patchStr) :=
        match index '-' patchStr with
        | some i => (split '.' (patchStr.drop (i + 1)), patchStr.take i)
        | none => (([] : List Str), patchStr)
      let patch ← parseNumber .patch patchStr
      let pre ← prerelease.mapM NewPRVersion
      let bld ← build.mapM checkBuild
      pure { Major := major, Minor := minor, Patch := patch, Pre := pre, Build := bld }
    | _ => .error .noMajorMinorPatch

/-! ## `tagSemVer` -/

/-- The loop of `tagSemVer`: `for strings.Count(tag, ".") < 2 { tag += ".0" }`.
Each round adds one dot, so the loop ends after at most two rounds. -/
def padZeros (tag : Str) : Str :=
  if _h : count '.' tag < 2 then padZeros (tag ++ ".0".toList) else tag
termination_by 2 - count '.' tag
decreasing_by
  have h1 : count '.' (tag ++ ".0".toList) = count '.' tag + 1 := by
    unfold count
    rw [List.count_append]
    rfl
  omega

/-- The function `tagSemVer` of `main.go` with `semver.Parse` as a parameter:
trim one leading `v`, pad with `.0` up to two dots, parse. -/
def tagSemVerWith {ε α : Type} (parse : Str → Except ε α) (tag : Str) : Except ε α :=
  parse (padZeros (trimPrefix 'v' tag))

/-- The function `tagSemVer` of `main.go`. -/
def tagSemVer (tag : Str) : Except ParseError Version :=
  tagSemVerWith Parse tag

/-! ## Comparison of versions (package `semver`) -/

/-- Go's `<` on strings: the order of the first place where two strings
differ, a string being smaller than the strings it begins.  Go compares
bytes; on UTF-8 text that is the order of the code points. -/
def ltStr : Str → Str → Bool
  | [], [] => false
  | [], _ :: _ => true
  | _ :: _, [] => false
  | x :: xs, y :: ys =>
    if x.toNat < y.toNat then true
    else if y.toNat < x.toNat then false
    else ltStr xs ys

/-- Modelled from the spec: the method `Compare` of `semver.PRVersion` (the
imported package, not in `main.go`), the "pre-release tag ordering" of the
spec: a number is below a word, numbers go by value, words by `<` on
strings.  The result is -1, 0 or 1. -/
def PRVersion.Compare (v o : PRVersion) : Int :=
  if v.IsNum && !o.IsNum then -1
  else if !v.IsNum && o.IsNum then 1
  else if v.IsNum && o.IsNum then
    if v.VersionNum = o.VersionNum then 0
    else if v.VersionNum > o.VersionNum then 1
    else -1
  else
    if v.VersionStr = o.VersionStr then 0
    else if ltStr o.VersionStr v.VersionStr then 1
    else -1

/-- The loop of `semver.Version.Compare` over two pre-release lists and the
test after it: the first identifiers that differ decide; when one list runs
out first, the shorter one is the smaller. -/
def comparePre : List PRVersion → List PRVersion → Int
  | [], [] => 0
  | [], _ :: _ => -1
  | _ :: _, [] => 1
  | x :: xs, y :: ys =>
    if x.Compare y = 0 then comparePre xs ys
    else if x.Compare y = 1 then 1
    else -1

/-- Modelled from the spec: the method `Compare` of `semver.Version` (the
imported package, not in `main.go`), the spec's "standard semantic-version
precedence (major, then minor, then patch, then pre-release tag ordering)":
-1 when `v` is below `o`, 0 when they are level, 1 when `v` is above.  A
version without pre-release is above one with; build identifiers play no
part. -/
def Version.Compare (v o : Version) : Int :=
  if v.Major ≠ o.Major then
    if v.Major > o.Major then 1 else -1
  else if v.Minor ≠ o.Minor then
    if v.Minor > o.Minor then 1 else -1
  else if v.Patch ≠ o.Patch then
    if v.Patch > o.Patch then 1 else -1
  else if v.Pre.length = 0 && o.Pre.length = 0 then 0
  else if v.Pre.length = 0 && o.Pre.length > 0 then 1
  else if v.Pre.length > 0 && o.Pre.length = 0 then -1
  else comparePre v.Pre o.Pre

/-- The method `GT` of `semver.Version`: `v.Compare(o) == 1`. -/
def Version.GT (v o : Version) : Bool :=
  decide (v.Compare o = 1)

/-- The method `LT` of `semver.Version`: `v.Compare(o) == -1`. -/
def Version.LT (v o : Version) : Bool :=
  decide (v.Compare o = -1)

/-- The method `EQ` of `semver.Version`: `v.Compare(o) == 0`. -/
def Version.EQ (v o : Version) : Bool :=
  decide (v.Compare o = 0)

/-- The laws of a three-way comparison with results -1, 0 and 1 that orders
its arguments: turning the arguments round turns the sign, "below" is
transitive, and arguments that are level compare alike with any third. -/
def IsCmp {α : Type} (cmp : α → α → Int) : Prop :=
  (∀ x y, cmp x y = -1 ∨ cmp x y = 0 ∨ cmp x y = 1) ∧
  (∀ x y, cmp y x = - cmp x y) ∧
  (∀ x y z, cmp x y = -1 → cmp y z = -1 → cmp x z = -1) ∧
  (∀ x y z, cmp x y = 0 → cmp x z = cmp y z)

/-- The comparison of two numbers as `Compare` writes it:
`if a != b { if a > b { return 1 }; return -1 }`, and 0 when they are equal. -/
def cmpNat (a b : Nat) : Int :=
  if a ≠ b then (if a > b then 1 else -1) else 0

/-- The comparison of two words as `PRVersion.Compare` writes it. -/
def cmpStr (a b : Str) : Int :=
  if a = b then 0 else if ltStr b a then 1 else -1

/-- The part of `Version.Compare` on the pre-release lists: the three quick
tests on empty lists, then the loop. -/
def cmpPre (xs ys : List PRVersion) : Int :=
  if xs.length = 0 && ys.length = 0 then 0
  else if xs.length = 0 && ys.length > 0 then 1
  else if xs.length > 0 && ys.length = 0 then -1
  else comparePre xs ys

/-! ## Well-formed parts of a version string -/

/-- A numeric component that `semver.Parse` reads as the number `n`: a
non-empty string of decimal digits, without leading zero, whose value `n` fits
in 64 bits. -/
def NumericComponent (s : Str) (n : Nat) : Prop :=
  s ≠ [] ∧ (∀ c ∈ s, c ∈ numbers) ∧ hasLeadingZeroes s = false ∧
    parseDigits 0 s = some n ∧ n < 2 ^ 64

/-- A pre-release identifier and what `NewPRVersion` makes of it: a non-empty
string of letters, digits and `-`; when it is all digits it has no leading
zero, fits in 64 bits and is kept as a number, otherwise it is kept as it
is. -/
def PrereleaseIdent (s : Str) (pr : PRVersion) : Prop :=
  s ≠ [] ∧ (∀ c ∈ s, c ∈ alphanum) ∧
    (((∀ c ∈ s, c ∈ numbers) ∧ hasLeadingZeroes s = false ∧
        ∃ n, parseDigits 0 s = some n ∧ n < 2 ^ 64 ∧
          pr = { VersionStr := [], VersionNum := n, IsNum := true }) ∨
      ((¬ ∀ c ∈ s, c ∈ numbers) ∧ pr = { VersionStr := s, VersionNum := 0, IsNum := false }))

/-- Go `strconv.FormatUint(n, 10)`: the decimal digits of `n`, `0` for zero. -/
def formatUint (n : Nat) : Str :=
  if n = 0 then ['0'] else (Nat.digits 10 n).reverse.map (fun d => Char.ofNat (48 + d))

/-- Modelled from the spec: the method `String` of `semver.PRVersion` (the
imported package, not in `main.go`), by which a pre-release identifier is
written out again: the number in decimal, or the word. -/
def PRVersion.String (v : PRVersion) : Str :=
  if v.IsNum then formatUint v.VersionNum else v.VersionStr

/-! ## The registry transport, `registryCache.Get` and the loop of `main2`

`registry.New` and `(*Registry).Tags` belong to the imported package
github.com/heroku/docker-registry-client and talk to the network.  They are
parameters of the model (`Transport`): each call reads and changes a state
`W` of the world outside the program, so that two calls with the same
arguments may end differently.  What the program does is recorded as a list of
events: its log lines and its calls to the transport, in order. -/

/-- The constant `dockerHubURL` of `main.go`. -/
def dockerHubURL : Str := "https://registry-1.docker.io/".toList

/-- The two functions of package `registry` that `main.go` calls: `New(url,
username, password)` gives a handle or an error, `Tags(repository)` on a handle
gives the tags or an error. -/
structure Transport (W H E : Type) where
  New : Str → Str → Str → W → Except E H × W
  Tags : H → Str → W → Except E (List Str) × W

/-- A pod, as far as `main2` reads it: `GetNamespace()` and `GetName()`. -/
structure Pod where
  Namespace : Str
  Name : Str
  deriving DecidableEq, Repr

/-- The log lines of `main.go` and its calls to the transport.  `H` is the
type of registry handles, `E` of the transport's errors, `V` of versions and
`P` of the errors of the version parser. -/
inductive Event (H E V P : Type) where
  /-- The call `registry.New(url, username, password)` and how it ended. -/
  | newCall (url username password : Str) (res : Except E H)
  /-- The call `hub.Tags(repository)`. -/
  | tagsCall (hub : H) (repository : Str)
  /-- "hit for %q: %v". -/
  | logHit (reg : Str) (hub : H)
  /-- "miss for %q: %v". -/
  | logMiss (reg : Str) (hub : H)
  /-- "Unable to parse image: %q". -/
  | logUnableToParseImage (imgName : Str)
  /-- "Image: %s". -/
  | logImage (img : imageName)
  /-- "Unable to parse %q as semver: %v". -/
  | logUnableToParseSemver (tag : Str) (err : P)
  /-- "Unable to connect to registry %s: %v". -/
  | logUnableToConnect (img : imageName) (err : E)
  /-- "Unable to fetch tags for %s: %v". -/
  | logUnableToFetchTags (img : imageName) (err : E)
  /-- "Skipping non-semver %q: %v". -/
  | logSkippingNonSemver (t : Str) (err : P)
  /-- "** Newer tag found: %s". -/
  | logNewerTag (tagv : V)
  /-- "Used by: %s/%s". -/
  | logUsedBy (podNamespace podName : Str)

/-- The type `registryCache` of `main.go`, a map from registry host to handle;
`none` is the nil a Go map gives for a key it does not hold. -/
abbrev registryCache (H : Type) := Str → Option H

/-- The empty map `registryCache{}`. -/
def registryCache.empty (H : Type) : registryCache H := fun _ => none

/-- The assignment `(*r)[reg] = hub`. -/
def registryCache.set {H : Type} (r : registryCache H) (reg : Str) (hub : H) :
    registryCache H :=
  fun k => if k = reg then some hub else r k

/-- What a call of `registryCache.Get` leaves: its result, the map, the world
and the events of the call. -/
structure GetResult (W H E V P : Type) where
  result : Except E H
  cache : registryCache H
  world : W
  events : List (Event H E V P)

/-- The URL `registryCache.Get` opens for a host: `dockerHubURL` for the empty
host, `https://` followed by the host for any other. -/
def registryURL (reg : Str) : Str :=
  if reg ≠ [] then "https://".toList ++ reg else dockerHubURL

/-- The method `Get` of `registryCache`. -/
def registryCache.Get {W H E V P : Type} (T : Transport W H E) (r : registryCache H)
    (w : W) (reg : Str) : GetResult W H E V P :=
  match r reg with
  | some hub => { result := .ok hub, cache := r, world := w, events := [.logHit reg hub] }
  | none =>
    let url := registryURL reg
    match T.New url [] [] w with
    | (.error err, w1) =>
      { result := .error err, cache := r, world := w1,
        events := [.newCall url [] [] (.error err)] }
    | (.ok hub, w1) =>
      { result := .ok hub, cache := r.set reg hub, world := w1,
        events := [.newCall url [] [] (.ok hub), .logMiss reg hub] }

/-- A run of `Get` calls made one after another, with the events of each
call. -/
def registryCache.GetSeq {W H E V P : Type} (T : Transport W H E) :
    List Str → registryCache H → W → List (Str × List (Event H E V P)) × registryCache H × W
  | [], r, w => ([], r, w)
  | reg :: regs, r, w =>
    let g : GetResult W H E V P := registryCache.Get T r w reg
    let rest := registryCache.GetSeq T regs g.cache g.world
    ((reg, g.events) :: rest.1, rest.2)

/-- The loop over the remote tags in `main2` (lines 191 to 201): a tag that is
no version is skipped with a log line, a version above the deployed one is
logged as newer, any other tag leaves no line. -/
def reportTags {H E V P : Type} (parse : Str → Except P V) (gt : V → V → Bool) (ver : V) :
    List Str → List (Event H E V P)
  | [] => []
  | t :: ts =>
    match tagSemVerWith parse t with
    | .error err => .logSkippingNonSemver t err :: reportTags parse gt ver ts
    | .ok tagv =>
      if gt tagv ver then .logNewerTag tagv :: reportTags parse gt ver ts
      else reportTags parse gt ver ts

/-- What the loop of `main2` carries from one image to the next: the registry
cache and the world. -/
structure LoopState (W H : Type) where
  cache : registryCache H
  world : W

/-- The body of the loop of `main2` (lines 161 to 205) for one image string
and the pods that use it, with the version parser `semver.Parse` and the
comparison `GT` as parameters. -/
def evalImage {W H E V P : Type} (parse : Str → Except P V) (gt : V → V → Bool)
    (T : Transport W H E) (imgName : Str) (pods : List Pod) (st : LoopState W H) :
    LoopState W H × List (Event H E V P) :=
  match parseImage imgName with
  | none => (st, [.logUnableToParseImage imgName])
  | some img =>
    if img.tag = [] then (st, [.logImage img])
    else
      match tagSemVerWith parse img.tag with
      | .error err => (st, [.logImage img, .logUnableToParseSemver img.tag err])
      | .ok ver =>
        let g : GetResult W H E V P := registryCache.Get T st.cache st.world img.registry
        match g.result with
        | .error err =>
          ({ cache := g.cache, world := g.world },
            .logImage img :: (g.events ++ [.logUnableToConnect img err]))
        | .ok hub =>
          let repository := img.namespace_ ++ ("/".toList ++ img.repository)
          match T.Tags hub repository g.world with
          | (.error err, w2) =>
            ({ cache := g.cache, world := w2 },
              .logImage img ::
                (g.events ++ [.tagsCall hub repository, .logUnableToFetchTags img err]))
          | (.ok tags, w2) =>
            ({ cache := g.cache, world := w2 },
              .logImage img ::
                (g.events ++ (.tagsCall hub repository ::
                  (reportTags parse gt ver tags ++
                    pods.map (fun pod => .logUsedBy pod.Namespace pod.Name)))))

/-- The loop of `main2` over the images (lines 160 to 206); the list is the
map `images` in the order the loop visits it. -/
def evalLoop {W H E V P : Type} (parse : Str → Except P V) (gt : V → V → Bool)
    (T : Transport W H E) :
    List (Str × List Pod) → LoopState W H → LoopState W H × List (Event H E V P)
  | [], st => (st, [])
  | (imgName, pods) :: rest, st =>
    let r1 := evalImage parse gt T imgName pods st
    let r2 := evalLoop parse gt T rest r1.1
    (r2.1, r1.2 ++ r2.2)

/-! ## Reading the events -/

/-- An event is a call of `registry.New`. -/
def Event.isNewCall {H E V P : Type} : Event H E V P → Bool
  | .newCall _ _ _ _ => true
  | _ => false

/-- An event is a call of `registry.New` that gave a handle. -/
def Event.isNewCallOk {H E V P : Type} : Event H E V P → Bool
  | .newCall _ _ _ (.ok _) => true
  | _ => false

/-- An event is a call of `registry.New` that gave an error. -/
def Event.isNewCallError {H E V P : Type} : Event H E V P → Bool
  | .newCall _ _ _ (.error _) => true
  | _ => false

/-- An event is a call to the transport, `registry.New` or `Tags`. -/
def Event.isTransportCall {H E V P : Type} : Event H E V P → Bool
  | .newCall _ _ _ _ => true
  | .tagsCall _ _ => true
  | _ => false

/-- The version of a "Newer tag found" line, `none` for any other event. -/
def Event.newerTag? {H E V P : Type} : Event H E V P → Option V
  | .logNewerTag tagv => some tagv
  | _ => none

/-- The events of the calls `Get(reg)` in a run of `Get` calls. -/
def eventsFor {H E V P : Type} (reg : Str) :
    List (Str × List (Event H E V P)) → List (Event H E V P)
  | [] => []
  | (k, evs) :: rest => if k = reg then evs ++ eventsFor reg rest else eventsFor reg rest

/-- A transport for the examples: the world counts the calls of `New`; the
first call fails, every later one gives the URL as handle; `Tags` gives the
same five tags for every repository. -/
def flakyTransport : Transport Nat Str Unit where
  New := fun url _ _ w => (if w = 0 then .error () else .ok url, w + 1)
  Tags := fun _ _ w =>
    (.ok ["1.1.0".toList, "1.2.0".toList, "1.3.0".toList, "v1.4".toList, "latest".toList], w)

/-! ## Lemmas on `index` and `split` -/

theorem index_eq_none_iff (c : Char) (s : Str) : index c s = none ↔ c ∉ s := by
  induction s with
  | nil => simp [index]
  | cons x xs ih =>
    by_cases h : x = c
    · simp [index, h]
    · have h2 : ¬ c = x := fun e => h e.symm
      simp [index, h, h2, ih]

theorem index_eq_some (c : Char) (s : Str) (i : Nat) (h : index c s = some i) :
    c ∉ s.take i ∧ s = s.take i ++ c :: s.drop (i + 1) := by
  induction s generalizing i with
  | nil => simp [index] at h
  | cons x xs ih =>
    by_cases hx : x = c
    · simp [index, hx] at h
      subst h
      simp [hx]
    · have hx2 : ¬ c = x := fun e => hx e.symm
      simp only [index, hx, if_false, Option.map_eq_some'] at h
      obtain ⟨j, hj, rfl⟩ := h
      obtain ⟨h1, h2⟩ := ih j hj
      refine ⟨?_, ?_⟩
      · simp [List.take_succ_cons, hx2, h1]
      · simp only [List.take_succ_cons, List.drop_succ_cons, List.cons_append]
        rw [← h2]

theorem index_append_cons (c : Char) (a b : Str) (h : c ∉ a) :
    index c (a ++ c :: b) = some a.length := by
  induction a with
  | nil => simp [index]
  | cons x xs ih =>
    have hx : ¬ x = c := fun e => h (by simp [e])
    have hxs : c ∉ xs := fun e => h (by simp [e])
    simp [index, hx, ih hxs]

theorem split_ne_nil (sep : Char) (s : Str) : split sep s ≠ [] := by
  cases s with
  | nil => simp [split]
  | cons x xs =>
    by_cases h : x = sep <;> simp [split, h]

theorem length_split (sep : Char) (s : Str) : (split sep s).length = count sep s + 1 := by
  induction s with
  | nil => simp [split, count]
  | cons x xs ih =>
    by_cases h : x = sep
    · simp only [split, h, if_true, List.length_cons, ih, count, List.count_cons_self]
    · have h0 : 0 < (split sep xs).length := List.length_pos.mpr (split_ne_nil sep xs)
      have hc : List.count sep (x :: xs) = List.count sep xs :=
        List.count_cons_of_ne (fun e => h e.symm) xs
      simp only [split, h, if_false, List.length_cons, List.length_tail, count, hc] at *
      omega

theorem split_of_not_mem (sep : Char) (s : Str) (h : sep ∉ s) : split sep s = [s] := by
  induction s with
  | nil => simp [split]
  | cons x xs ih =>
    have hx : ¬ x = sep := fun e => h (by simp [e])
    have hxs : sep ∉ xs := fun e => h (by simp [e])
    simp [split, hx, ih hxs]

theorem split_append_cons (sep : Char) (a b : Str) (h : sep ∉ a) :
    split sep (a ++ sep :: b) = a :: split sep b := by
  induction a with
  | nil => simp [split]
  | cons x xs ih =>
    have hx : ¬ x = sep := fun e => h (by simp [e])
    have hxs : sep ∉ xs := fun e => h (by simp [e])
    simp [split, hx, ih hxs]

theorem not_mem_of_mem_split (sep : Char) (s x : Str) (h : x ∈ split sep s) : sep ∉ x := by
  induction s generalizing x with
  | nil =>
    simp [split] at h
    simp [h]
  | cons y ys ih =>
    by_cases hy : y = sep
    · simp only [split, hy, if_true, List.mem_cons] at h
      rcases h with rfl | h
      · simp
      · exact ih x h
    · have hne := split_ne_nil sep ys
      cases hl : split sep ys with
      | nil => exact absurd hl hne
      | cons z zs =>
        rw [hl] at ih
        simp only [split, hy, if_false, hl, List.headD_cons, List.tail_cons, List.mem_cons] at h
        rcases h with rfl | h
        · have hz := ih z (by simp)
          intro hm
          simp only [List.mem_cons] at hm
          rcases hm with e | e
          · exact hy e.symm
          · exact hz e
        · exact ih x (by simp [h])

/-- A string is its segments joined by the separator. -/
theorem intercalate_split (sep : Char) (s : Str) :
    List.intercalate [sep] (split sep s) = s := by
  induction s with
  | nil => simp [split, List.intercalate]
  | cons y ys ih =>
    have hne := split_ne_nil sep ys
    cases hl : split sep ys with
    | nil => exact absurd hl hne
    | cons z zs =>
      rw [hl] at ih
      by_cases hy : y = sep
      · simp only [split, hy, if_true, hl]
        rw [← ih]
        simp [List.intercalate, List.intersperse]
      · simp only [split, hy, if_false, hl, List.headD_cons, List.tail_cons]
        rw [← ih]
        cases zs <;> simp [List.intercalate, List.intersperse]

/-! ## Lemmas on `scanRepository` and `parseImage` -/

theorem containsAny_colon_dot (a : Str) :
    containsAny a ":.".toList = true ↔ (':' ∈ a ∨ '.' ∈ a) := by
  induction a with
  | nil => simp [containsAny]
  | cons x xs ih =>
    simp only [containsAny, List.any_cons, Bool.or_eq_true, decide_eq_true_eq] at ih ⊢
    rw [ih]
    have hx : x ∈ ":.".toList ↔ (x = ':' ∨ x = '.') := by
      simp [String.toList]
    rw [hx]
    simp only [List.mem_cons]
    constructor
    · rintro ((h | h) | (h | h))
      · exact Or.inl (Or.inl h.symm)
      · exact Or.inr (Or.inl h.symm)
      · exact Or.inl (Or.inr h)
      · exact Or.inr (Or.inr h)
    · rintro ((h | h) | (h | h))
      · exact Or.inl (Or.inl h.symm)
      · exact Or.inr (Or.inl h)
      · exact Or.inl (Or.inr h.symm)
      · exact Or.inr (Or.inr h)

/-- What `scanRepository` returns, by the separators of the candidate. -/
theorem scanRepository_spec (ret : imageName) (ht : ret.tag = []) (hd : ret.digest = []) :
    (scanRepository ret).registry = ret.registry ∧
    (scanRepository ret).namespace_ = ret.namespace_ ∧
    ('@' ∈ ret.repository →
      '@' ∉ (scanRepository ret).repository ∧
      ret.repository = (scanRepository ret).repository ++ '@' :: (scanRepository ret).digest ∧
      (scanRepository ret).tag = []) ∧
    ('@' ∉ ret.repository → ':' ∈ ret.repository →
      ':' ∉ (scanRepository ret).repository ∧
      ret.repository = (scanRepository ret).repository ++ ':' :: (scanRepository ret).tag ∧
      (scanRepository ret).digest = []) ∧
    ('@' ∉ ret.repository → ':' ∉ ret.repository →
      (scanRepository ret).repository = ret.repository ∧
      (scanRepository ret).tag = "latest".toList ∧
      (scanRepository ret).digest = []) := by
  unfold scanRepository
  cases h1 : index '@' ret.repository with
  | some i =>
    have hm : '@' ∈ ret.repository := by
      by_contra hc
      rw [(index_eq_none_iff _ _).mpr hc] at h1
      cases h1
    obtain ⟨ha, hb⟩ := index_eq_some _ _ _ h1
    refine ⟨rfl, rfl, fun _ => ⟨ha, hb, ht⟩, fun hc => absurd hm hc, fun hc => absurd hm hc⟩
  | none =>
    have hm : '@' ∉ ret.repository := (index_eq_none_iff _ _).mp h1
    cases h2 : index ':' ret.repository with
    | some i =>
      have hm2 : ':' ∈ ret.repository := by
        by_contra hc
        rw [(index_eq_none_iff _ _).mpr hc] at h2
        cases h2
      obtain ⟨ha, hb⟩ := index_eq_some _ _ _ h2
      exact ⟨rfl, rfl, fun hc => absurd hc hm, fun _ _ => ⟨ha, hb, hd⟩,
        fun _ hc => absurd hm2 hc⟩
    | none =>
      have hm2 : ':' ∉ ret.repository := (index_eq_none_iff _ _).mp h2
      exact ⟨rfl, rfl, fun hc => absurd hc hm, fun _ hc => absurd hc hm2,
        fun _ _ => ⟨rfl, rfl, hd⟩⟩

/-- The repository, tag and digest that `scanRepository` returns depend on the
candidate repository only. -/
theorem scanRepository_congr (r1 r2 : imageName) (h : r1.repository = r2.repository)
    (ht : r1.tag = r2.tag) (hd : r1.digest = r2.digest) :
    (scanRepository r1).repository = (scanRepository r2).repository ∧
    (scanRepository r1).tag = (scanRepository r2).tag ∧
    (scanRepository r1).digest = (scanRepository r2).digest := by
  unfold scanRepository
  rw [h]
  cases index '@' r2.repository with
  | some i => simp [h, ht]
  | none =>
    cases index ':' r2.repository with
    | some i => simp [h, hd]
    | none => simp [h, hd]

theorem parseImage_one (s : Str) (h : '/' ∉ s) :
    parseImage s = some (scanRepository
      { registry := [], namespace_ := "library".toList, repository := s, tag := [],
        digest := [] }) := by
  simp [parseImage, split_of_not_mem _ _ h]

theorem parseImage_two (a b : Str) (ha : '/' ∉ a) (hb : '/' ∉ b) :
    parseImage (a ++ '/' :: b) =
      if containsAny a ":.".toList then
        some (scanRepository
          { registry := a, namespace_ := "library".toList, repository := b, tag := [],
            digest := [] })
      else
        some (scanRepository
          { registry := [], namespace_ := a, repository := b, tag := [], digest := [] }) := by
  simp [parseImage, split_append_cons _ _ _ ha, split_of_not_mem _ _ hb]

theorem parseImage_three (a b c : Str) (ha : '/' ∉ a) (hb : '/' ∉ b) (hc : '/' ∉ c) :
    parseImage (a ++ '/' :: (b ++ '/' :: c)) = some (scanRepository
      { registry := a, namespace_ := b, repository := c, tag := [], digest := [] }) := by
  simp [parseImage, split_append_cons _ _ _ ha, split_append_cons _ _ _ hb,
    split_of_not_mem _ _ hc]

/-- A successful `parseImage` is `scanRepository` on a record whose candidate
repository is the last segment of the input. -/
theorem parseImage_eq_some (s : Str) (r : imageName) (h : parseImage s = some r) :
    ∃ ret : imageName, r = scanRepository ret ∧ ret.tag = [] ∧ ret.digest = [] ∧
      (split '/' s).getLast? = some ret.repository ∧
      ret.registry ∈ [] :: split '/' s ∧
      ret.namespace_ ∈ "library".toList :: split '/' s := by
  unfold parseImage at h
  simp only at h
  split at h
  · rename_i n0 hs
    cases h
    exact ⟨_, rfl, rfl, rfl, by simp [hs], by simp, by simp⟩
  · rename_i n0 n1 hs
    split at h
    · cases h
      exact ⟨_, rfl, rfl, rfl, by simp [hs], by simp [hs], by simp⟩
    · cases h
      exact ⟨_, rfl, rfl, rfl, by simp [hs], by simp, by simp [hs]⟩
  · rename_i n0 n1 n2 hs
    cases h
    exact ⟨_, rfl, rfl, rfl, by simp [hs], by simp [hs], by simp [hs]⟩
  · cases h

/-- The last segment of an accepted input, as `parseImage` reads it. -/
theorem parseImage_last_segment (s seg : Str) (r : imageName)
    (h : parseImage s = some r) (hseg : (split '/' s).getLast? = some seg) :
    ('@' ∈ seg → '@' ∉ r.repository ∧ seg = r.repository ++ '@' :: r.digest ∧ r.tag = []) ∧
    ('@' ∉ seg → ':' ∈ seg →
      ':' ∉ r.repository ∧ seg = r.repository ++ ':' :: r.tag ∧ r.digest = []) ∧
    ('@' ∉ seg → ':' ∉ seg →
      r.repository = seg ∧ r.tag = "latest".toList ∧ r.digest = []) := by
  obtain ⟨ret, rfl, ht, hd, hl, -, -⟩ := parseImage_eq_some s r h
  rw [hl] at hseg
  cases hseg
  exact (scanRepository_spec ret ht hd).2.2

theorem getLast?_split_isSome (sep : Char) (s : Str) :
    ∃ seg, (split sep s).getLast? = some seg ∧ seg ∈ split sep s := by
  cases hl : (split sep s).getLast? with
  | none => exact absurd (List.getLast?_eq_none_iff.mp hl) (split_ne_nil sep s)
  | some seg => exact ⟨seg, rfl, List.mem_of_getLast?_eq_some hl⟩

/-- A prefix that ends before the first `c` is empty exactly when the string
starts with `c`. -/
theorem prefix_eq_nil_iff (c : Char) (seg a b : Str) (h : seg = a ++ c :: b) (hc : c ∉ a) :
    a = [] ↔ seg.head? = some c := by
  subst h
  cases a with
  | nil => simp
  | cons x xs =>
    have hx : ¬ x = c := fun e => hc (by simp [e])
    simp [hx]

/-- The facts about a parsed reference that the round trip rests on. -/
theorem parseImage_invariants (s : Str) (r : imageName) (h : parseImage s = some r) :
    '/' ∉ r.registry ∧ '/' ∉ r.namespace_ ∧ '/' ∉ r.repository ∧ '/' ∉ r.tag ∧
    '/' ∉ r.digest ∧ '@' ∉ r.repository ∧ (r.tag = [] ∨ r.digest = []) ∧
    (r.tag ≠ [] → ':' ∉ r.repository ∧ '@' ∉ r.tag) := by
  obtain ⟨ret, hr, ht, hd, hl, hreg, hns⟩ := parseImage_eq_some s r h
  have hspec := scanRepository_spec ret ht hd
  rw [← hr] at hspec
  obtain ⟨e1, e2, c1, c2, c3⟩ := hspec
  have hseg : '/' ∉ ret.repository :=
    not_mem_of_mem_split _ _ _ (List.mem_of_getLast?_eq_some hl)
  have hreg2 : '/' ∉ r.registry := by
    rw [e1]
    rcases List.mem_cons.mp hreg with e | e
    · simp [e]
    · exact not_mem_of_mem_split _ _ _ e
  have hns2 : '/' ∉ r.namespace_ := by
    rw [e2]
    rcases List.mem_cons.mp hns with e | e
    · rw [e]; decide
    · exact not_mem_of_mem_split _ _ _ e
  by_cases ha : '@' ∈ ret.repository
  · obtain ⟨k1, k2, k3⟩ := c1 ha
    rw [k2] at hseg
    simp only [List.mem_append, List.mem_cons, not_or] at hseg
    refine ⟨hreg2, hns2, hseg.1, by simp [k3], hseg.2.2, k1, Or.inl k3,
      fun hn => absurd k3 hn⟩
  · by_cases hb : ':' ∈ ret.repository
    · obtain ⟨k1, k2, k3⟩ := c2 ha hb
      have ha2 := ha
      rw [k2] at hseg ha2
      simp only [List.mem_append, List.mem_cons, not_or] at hseg ha2
      refine ⟨hreg2, hns2, hseg.1, hseg.2.2, by simp [k3], ha2.1, Or.inr k3,
        fun _ => ⟨k1, ha2.2.2⟩⟩
    · obtain ⟨k1, k2, k3⟩ := c3 ha hb
      refine ⟨hreg2, hns2, by rw [k1]; exact hseg, by rw [k2]; decide, by simp [k3],
        by rw [k1]; exact ha, Or.inr k3, fun _ => ⟨by rw [k1]; exact hb, by rw [k2]; decide⟩⟩

theorem String_eq (r : imageName) :
    r.String =
      (if r.registry ≠ [] then r.registry ++ ['/'] else []) ++
        ((if r.namespace_ ≠ [] then r.namespace_ ++ ['/'] else []) ++ r.lastPart) := by
  unfold imageName.String imageName.lastPart
  by_cases h1 : r.registry = [] <;> by_cases h2 : r.namespace_ = [] <;>
    by_cases h3 : r.digest = [] <;> by_cases h4 : r.tag = [] <;>
    simp [h1, h2, h3, h4, String.toList]

theorem not_mem_lastPart (r : imageName) (h3 : '/' ∉ r.repository) (h4 : '/' ∉ r.tag)
    (h5 : '/' ∉ r.digest) : '/' ∉ r.lastPart := by
  unfold imageName.lastPart
  by_cases hd : r.digest = [] <;> by_cases ht : r.tag = [] <;>
    simp [hd, ht, h3, h4, h5]

/-- Reading back the last part of a rendered reference that has a tag or a
digest gives its repository, tag and digest again. -/
theorem scanRepository_lastPart (R N : Str) (r : imageName)
    (h1 : '@' ∉ r.repository) (h2 : r.tag = [] ∨ r.digest = [])
    (h3 : r.tag ≠ [] → ':' ∉ r.repository ∧ '@' ∉ r.tag)
    (hne : r.tag ≠ [] ∨ r.digest ≠ []) :
    scanRepository
        { registry := R, namespace_ := N, repository := r.lastPart, tag := [], digest := [] } =
      { registry := R, namespace_ := N, repository := r.repository, tag := r.tag,
        digest := r.digest } := by
  by_cases hd : r.digest = []
  · have ht : r.tag ≠ [] := by
      rcases hne with h | h
      · exact h
      · exact absurd hd h
    obtain ⟨k1, k2⟩ := h3 ht
    have hl : r.lastPart = r.repository ++ ':' :: r.tag := by
      simp [imageName.lastPart, hd, ht]
    have hi1 : index '@' (r.repository ++ ':' :: r.tag) = none := by
      rw [index_eq_none_iff]
      simp [h1, k2]
    have hi2 : index ':' (r.repository ++ ':' :: r.tag) = some r.repository.length :=
      index_append_cons _ _ _ k1
    simp [scanRepository, hl, hi1, hi2, hd]
  · have ht : r.tag = [] := by
      rcases h2 with h | h
      · exact h
      · exact absurd h hd
    have hl : r.lastPart = r.repository ++ '@' :: r.digest := by
      simp [imageName.lastPart, hd]
    have hi1 : index '@' (r.repository ++ '@' :: r.digest) = some r.repository.length :=
      index_append_cons _ _ _ h1
    simp [scanRepository, hl, hi1, ht]

/-- A reference without tag and digest is never what `scanRepository` returns
for its repository. -/
theorem scanRepository_ne_of_bare (R N : Str) (r : imageName)
    (h1 : '@' ∉ r.repository) (ht : r.tag = []) (hd : r.digest = []) :
    scanRepository
        { registry := R, namespace_ := N, repository := r.lastPart, tag := [], digest := [] }
      ≠ r := by
  have hl : r.lastPart = r.repository := by simp [imageName.lastPart, hd, ht]
  rw [hl]
  intro he
  obtain ⟨-, -, -, c2, c3⟩ := scanRepository_spec
    { registry := R, namespace_ := N, repository := r.repository, tag := [], digest := [] }
    rfl rfl
  rw [he] at c2 c3
  by_cases hb : ':' ∈ r.repository
  · exact (c2 h1 hb).1 hb
  · have := (c3 h1 hb).2.1
    rw [ht] at this
    exact absurd this (by decide)

theorem library_ne_nil : ¬ ("library".toList = ([] : Str)) := by decide

theorem scanRepository_registry (ret : imageName) :
    (scanRepository ret).registry = ret.registry := by
  unfold scanRepository
  cases index '@' ret.repository with
  | some i => rfl
  | none =>
    cases index ':' ret.repository with
    | some i => rfl
    | none => rfl

theorem scanRepository_namespace (ret : imageName) :
    (scanRepository ret).namespace_ = ret.namespace_ := by
  unfold scanRepository
  cases index '@' ret.repository with
  | some i => rfl
  | none =>
    cases index ':' ret.repository with
    | some i => rfl
    | none => rfl

/-- When re-parsing the rendering of a parsed reference gives the reference
back. -/
theorem parseImage_String_iff (r : imageName)
    (f1 : '/' ∉ r.registry) (f2 : '/' ∉ r.namespace_) (f3 : '/' ∉ r.repository)
    (f4 : '/' ∉ r.tag) (f5 : '/' ∉ r.digest)
    (h1 : '@' ∉ r.repository) (h2 : r.tag = [] ∨ r.digest = [])
    (h3 : r.tag ≠ [] → ':' ∉ r.repository ∧ '@' ∉ r.tag) :
    parseImage r.String = some r ↔
      (r.namespace_ ≠ [] ∧ (r.tag ≠ [] ∨ r.digest ≠ []) ∧
        (r.registry ≠ [] ∨ ¬ (':' ∈ r.namespace_ ∨ '.' ∈ r.namespace_))) := by
  have fl := not_mem_lastPart r f3 f4 f5
  have bare : ∀ R N, ¬ (r.tag ≠ [] ∨ r.digest ≠ []) →
      scanRepository ⟨R, N, r.lastPart, [], []⟩ ≠ r := by
    intro R N hn
    simp only [not_or, not_not] at hn
    exact scanRepository_ne_of_bare R N r h1 hn.1 hn.2
  by_cases hreg : r.registry = []
  · by_cases hns : r.namespace_ = []
    · -- only the last part is written: the namespace comes back as `library`
      have hS : r.String = r.lastPart := by
        rw [String_eq]
        simp [hreg, hns]
      rw [hS, parseImage_one _ fl]
      constructor
      · intro he
        have hn := congrArg imageName.namespace_ (Option.some.inj he)
        rw [scanRepository_namespace, hns] at hn
        exact absurd hn library_ne_nil
      · intro hc
        exact absurd hns hc.1
    · have hS : r.String = r.namespace_ ++ '/' :: r.lastPart := by
        rw [String_eq]
        simp [hreg, hns]
      rw [hS, parseImage_two _ _ f2 fl]
      by_cases hc : containsAny r.namespace_ ":.".toList = true
      · -- the namespace is read back as a registry
        rw [if_pos hc]
        have hc2 := (containsAny_colon_dot _).mp hc
        constructor
        · intro he
          have hn := congrArg imageName.registry (Option.some.inj he)
          rw [scanRepository_registry, hreg] at hn
          exact absurd hn hns
        · intro hn
          rcases hn.2.2 with e | e
          · exact absurd hreg e
          · exact absurd hc2 e
      · rw [if_neg hc]
        have hc2 : ¬ (':' ∈ r.namespace_ ∨ '.' ∈ r.namespace_) :=
          fun hn => hc ((containsAny_colon_dot _).mpr hn)
        by_cases hne : r.tag ≠ [] ∨ r.digest ≠ []
        · rw [scanRepository_lastPart _ _ r h1 h2 h3 hne]
          constructor
          · intro _
            exact ⟨hns, hne, Or.inr hc2⟩
          · intro _
            rw [← hreg]
        · constructor
          · intro he
            exact absurd (Option.some.inj he) (bare _ _ hne)
          · intro hn
            exact absurd hn.2.1 hne
  · by_cases hns : r.namespace_ = []
    · -- the registry and the last part are written: two segments
      have hS : r.String = r.registry ++ '/' :: r.lastPart := by
        rw [String_eq]
        simp [hreg, hns]
      rw [hS, parseImage_two _ _ f1 fl]
      constructor
      · intro he
        split_ifs at he
        · have hn := congrArg imageName.namespace_ (Option.some.inj he)
          rw [scanRepository_namespace, hns] at hn
          exact absurd hn library_ne_nil
        · have hn := congrArg imageName.namespace_ (Option.some.inj he)
          rw [scanRepository_namespace, hns] at hn
          exact absurd hn hreg
      · intro hc
        exact absurd hns hc.1
    · have hS : r.String = r.registry ++ '/' :: (r.namespace_ ++ '/' :: r.lastPart) := by
        rw [String_eq]
        simp [hreg, hns]
      rw [hS, parseImage_three _ _ _ f1 f2 fl]
      by_cases hne : r.tag ≠ [] ∨ r.digest ≠ []
      · rw [scanRepository_lastPart _ _ r h1 h2 h3 hne]
        constructor
        · intro _
          exact ⟨hns, hne, Or.inl hreg⟩
        · intro _
          rfl
      · constructor
        · intro he
          exact absurd (Option.some.inj he) (bare _ _ hne)
        · intro hn
          exact absurd hn.2.1 hne

/-- The rendering of a parsed reference is always accepted again. -/
theorem parseImage_String_isSome (r : imageName)
    (f1 : '/' ∉ r.registry) (f2 : '/' ∉ r.namespace_) (f3 : '/' ∉ r.repository)
    (f4 : '/' ∉ r.tag) (f5 : '/' ∉ r.digest) :
    ∃ r2, parseImage r.String = some r2 := by
  have fl := not_mem_lastPart r f3 f4 f5
  rw [String_eq]
  by_cases hreg : r.registry = [] <;> by_cases hns : r.namespace_ = []
  · simp only [hreg, hns, ne_eq, not_true_eq_false, if_false, List.nil_append]
    exact ⟨_, parseImage_one _ fl⟩
  · simp only [hreg, hns, ne_eq, not_true_eq_false, not_false_eq_true, if_false, if_true,
      List.nil_append, List.append_assoc, List.singleton_append]
    rw [parseImage_two _ _ f2 fl]
    split_ifs
    · exact ⟨_, rfl⟩
    · exact ⟨_, rfl⟩
  · simp only [hreg, hns, ne_eq, not_true_eq_false, not_false_eq_true, if_false, if_true,
      List.nil_append, List.append_assoc, List.singleton_append]
    rw [parseImage_two _ _ f1 fl]
    split_ifs
    · exact ⟨_, rfl⟩
    · exact ⟨_, rfl⟩
  · simp only [hreg, hns, ne_eq, not_false_eq_true, if_true, List.append_assoc,
      List.singleton_append]
    exact ⟨_, parseImage_three _ _ _ f1 f2 fl⟩

/-! ## Lemmas on `tagSemVer` -/

theorem padZeros_of_lt (u : Str) (h : count '.' u < 2) :
    padZeros u = padZeros (u ++ ".0".toList) := by
  rw [padZeros]
  simp [h]

theorem padZeros_of_not_lt (u : Str) (h : ¬ count '.' u < 2) : padZeros u = u := by
  rw [padZeros]
  simp [h]

theorem count_append_dot_zero (u : Str) :
    count '.' (u ++ ".0".toList) = count '.' u + 1 := by
  unfold count
  rw [List.count_append]
  rfl

theorem trimPrefix_append_dot_zero (t : Str) :
    trimPrefix 'v' (t ++ ".0".toList) = trimPrefix 'v' t ++ ".0".toList := by
  cases t with
  | nil => decide
  | cons x xs =>
    by_cases hx : x = 'v' <;> simp [trimPrefix, hx]

theorem count_trimPrefix (t : Str) : count '.' (trimPrefix 'v' t) = count '.' t := by
  cases t with
  | nil => rfl
  | cons x xs =>
    by_cases hx : x = 'v'
    · subst hx
      simp only [trimPrefix, if_true, count]
      rw [List.count_cons_of_ne (by decide)]
    · simp [trimPrefix, hx]

theorem trimPrefix_of_head_ne (t : Str) (h : t.head? ≠ some 'v') : trimPrefix 'v' t = t := by
  cases t with
  | nil => rfl
  | cons x xs =>
    have hx : ¬ x = 'v' := fun e => h (by simp [e])
    simp [trimPrefix, hx]

/-- The first segment of a string is the first segment of the string with
more text appended after a separator. -/
theorem head_split_append (sep : Char) (u v : Str) :
    (split sep (u ++ sep :: v)).headD [] = (split sep u).headD [] := by
  induction u with
  | nil => simp [split]
  | cons x xs ih =>
    by_cases hx : x = sep
    · simp [split, hx]
    · simp only [List.cons_append, split, hx, if_false, List.headD_cons]
      exact congrArg (List.cons x) ih

/-- The padding loop ends with at least two dots and leaves the first
dot-separated component as it was. -/
theorem padZeros_spec (u : Str) :
    2 ≤ count '.' (padZeros u) ∧
      (split '.' (padZeros u)).headD [] = (split '.' u).headD [] := by
  generalize hn : 2 - count '.' u = n
  induction n generalizing u with
  | zero =>
    have h : ¬ count '.' u < 2 := by omega
    rw [padZeros_of_not_lt u h]
    exact ⟨by omega, rfl⟩
  | succ k ih =>
    have h : count '.' u < 2 := by omega
    rw [padZeros_of_lt u h]
    have hc := count_append_dot_zero u
    obtain ⟨h1, h2⟩ := ih (u ++ ".0".toList) (by omega)
    refine ⟨h1, ?_⟩
    rw [h2]
    exact head_split_append '.' u "0".toList

/-- With two separators or more, `splitN` to three parts gives three parts,
the first one the first segment. -/
theorem splitN_three (sep : Char) (w : Str) (h : 2 ≤ count sep w) :
    ∃ p1 p2, splitN sep 3 w = [(split sep w).headD [], p1, p2] := by
  have hm : sep ∈ w := by
    unfold count at h
    exact List.count_pos_iff.mp (by omega)
  cases hi : index sep w with
  | none => exact absurd hm ((index_eq_none_iff _ _).mp hi)
  | some i =>
    obtain ⟨ha, hb⟩ := index_eq_some _ _ _ hi
    have hsplit : split sep w = w.take i :: split sep (w.drop (i + 1)) := by
      conv_lhs => rw [hb]
      exact split_append_cons _ _ _ ha
    have hhead : (split sep w).headD [] = w.take i := by
      rw [hsplit]
      rfl
    have hcount : 1 ≤ count sep (w.drop (i + 1)) := by
      have hc : count sep w = count sep (w.take i) + (1 + count sep (w.drop (i + 1))) := by
        conv_lhs => rw [hb]
        unfold count
        rw [List.count_append, List.count_cons_self]
        omega
      have hz : count sep (w.take i) = 0 := by
        unfold count
        exact List.count_eq_zero.mpr ha
      omega
    have hm2 : sep ∈ w.drop (i + 1) := by
      unfold count at hcount
      exact List.count_pos_iff.mp (by omega)
    cases hj : index sep (w.drop (i + 1)) with
    | none => exact absurd hm2 ((index_eq_none_iff _ _).mp hj)
    | some j =>
      refine ⟨(w.drop (i + 1)).take j, (w.drop (i + 1)).drop (j + 1), ?_⟩
      rw [hhead]
      simp [splitN, hi, hj]

/-- A first component that is not a non-empty string of digits is refused as
major number. -/
theorem parseNumber_major_error (a : Str) (h : ¬ (a ≠ [] ∧ ∀ c ∈ a, c ∈ numbers)) :
    ∃ e, parseNumber .major a = .error e := by
  unfold parseNumber
  by_cases hc : containsOnly a numbers = true
  · have hall : ∀ c ∈ a, c ∈ numbers := by
      simpa [containsOnly] using hc
    have hnil : a = [] := by
      by_contra hne
      exact h ⟨hne, hall⟩
    subst hnil
    exact ⟨_, rfl⟩
  · simp only [Bool.not_eq_true] at hc
    simp [hc]

/-- The function `semver.Parse` fails when its first component fails. -/
theorem Parse_error_of_major (w : Str) (h2 : 2 ≤ count '.' w)
    (h : ¬ ((split '.' w).headD [] ≠ [] ∧ ∀ c ∈ (split '.' w).headD [], c ∈ numbers)) :
    ∃ e, Parse w = .error e := by
  obtain ⟨p1, p2, hs⟩ := splitN_three '.' w h2
  obtain ⟨e, he⟩ := parseNumber_major_error _ h
  unfold Parse
  by_cases hw : w = []
  · simp [hw]
  · simp only [hw, if_false, hs]
    rw [he]
    exact ⟨e, rfl⟩

/-! ## The claims on `parseImage` -/

/-- C1, as amended: the rendering of a parsed reference is always accepted
again, and re-parsing it gives the reference back exactly when the reference
has a non-empty namespace, has a tag or a digest, and has a registry or a
namespace without `:` and `.`. -/
theorem parseImage_String_round_trip (s : Str) (r : imageName) (h : parseImage s = some r) :
    (∃ r2, parseImage r.String = some r2) ∧
    (parseImage r.String = some r ↔
      (r.namespace_ ≠ [] ∧ (r.tag ≠ [] ∨ r.digest ≠ []) ∧
        (r.registry ≠ [] ∨ ¬ (':' ∈ r.namespace_ ∨ '.' ∈ r.namespace_)))) := by
  obtain ⟨f1, f2, f3, f4, f5, h1, h2, h3⟩ := parseImage_invariants s r h
  exact ⟨parseImage_String_isSome r f1 f2 f3 f4 f5,
    parseImage_String_iff r f1 f2 f3 f4 f5 h1 h2 h3⟩

/-- C1 at `nginx`: the reference parsed from it has a namespace, a tag and no
`:` or `.` in the namespace; its rendering `library/nginx:latest` parses back
to it. -/
theorem parseImage_String_round_trip_witness :
    parseImage "nginx".toList =
      some { registry := [], namespace_ := "library".toList, repository := "nginx".toList,
             tag := "latest".toList, digest := [] } ∧
    imageName.String
        { registry := [], namespace_ := "library".toList, repository := "nginx".toList,
          tag := "latest".toList, digest := [] } = "library/nginx:latest".toList ∧
    parseImage "library/nginx:latest".toList =
      some { registry := [], namespace_ := "library".toList, repository := "nginx".toList,
             tag := "latest".toList, digest := [] } :=
  ⟨by decide, by decide,
   (parseImage_String_round_trip "nginx".toList
      { registry := [], namespace_ := "library".toList, repository := "nginx".toList,
        tag := "latest".toList, digest := [] } (by decide)).2.mpr (by decide)⟩

/-- C1, counterexample: `/b` is accepted with an empty namespace; its
rendering `b:latest` parses to namespace `library`, a different reference. -/
theorem parseImage_String_round_trip_counterexample :
    parseImage "/b".toList =
      some { registry := [], namespace_ := [], repository := "b".toList,
             tag := "latest".toList, digest := [] } ∧
    parseImage (imageName.String
        { registry := [], namespace_ := [], repository := "b".toList,
          tag := "latest".toList, digest := [] }) =
      some { registry := [], namespace_ := "library".toList, repository := "b".toList,
             tag := "latest".toList, digest := [] } ∧
    ¬ (∀ (s : Str) (r : imageName), parseImage s = some r → parseImage r.String = some r) := by
  refine ⟨by decide, by decide, fun hall => ?_⟩
  have h1 := hall "/b".toList
    { registry := [], namespace_ := [], repository := "b".toList,
      tag := "latest".toList, digest := [] } (by decide)
  revert h1
  decide

/-- C2, as amended: for an accepted input, the repository is empty exactly
when the last `/`-segment is empty, begins with `@`, or begins with `:` and
holds no `@`. -/
theorem parseImage_repository_eq_nil_iff (s seg : Str) (r : imageName)
    (h : parseImage s = some r) (hseg : (split '/' s).getLast? = some seg) :
    r.repository = [] ↔
      (seg = [] ∨ seg.head? = some '@' ∨ (seg.head? = some ':' ∧ '@' ∉ seg)) := by
  obtain ⟨c1, c2, c3⟩ := parseImage_last_segment s seg r h hseg
  by_cases ha : '@' ∈ seg
  · obtain ⟨k1, k2, -⟩ := c1 ha
    rw [prefix_eq_nil_iff '@' seg _ _ k2 k1]
    constructor
    · intro e
      exact Or.inr (Or.inl e)
    · rintro (e | e | e)
      · rw [e] at ha
        simp at ha
      · exact e
      · exact absurd ha e.2
  · by_cases hb : ':' ∈ seg
    · obtain ⟨k1, k2, -⟩ := c2 ha hb
      rw [prefix_eq_nil_iff ':' seg _ _ k2 k1]
      constructor
      · intro e
        exact Or.inr (Or.inr ⟨e, ha⟩)
      · rintro (e | e | e)
        · rw [e] at hb
          simp at hb
        · exfalso
          apply ha
          cases seg with
          | nil => simp at e
          | cons x xs =>
            simp only [List.head?_cons, Option.some.injEq] at e
            simp [e]
        · exact e.1
    · obtain ⟨k1, -, -⟩ := c3 ha hb
      rw [k1]
      constructor
      · intro e
        exact Or.inl e
      · rintro (e | e | e)
        · exact e
        · exfalso
          apply ha
          cases seg with
          | nil => simp at e
          | cons x xs =>
            simp only [List.head?_cons, Option.some.injEq] at e
            simp [e]
        · exfalso
          apply hb
          cases seg with
          | nil => simp at e
          | cons x xs =>
            simp only [List.head?_cons, Option.some.injEq] at e
            simp [e.1]

/-- C2 at `:x@y`: the last segment begins with `:` but holds an `@`, and the
repository `:x` is not empty. -/
theorem parseImage_repository_eq_nil_iff_witness :
    parseImage ":x@y".toList =
      some { registry := [], namespace_ := "library".toList, repository := ":x".toList,
             tag := [], digest := "y".toList } ∧
    (split '/' ":x@y".toList).getLast? = some ":x@y".toList ∧
    (":x".toList = ([] : Str) ↔
      (":x@y".toList = ([] : Str) ∨ ":x@y".toList.head? = some '@' ∨
        (":x@y".toList.head? = some ':' ∧ '@' ∉ ":x@y".toList))) :=
  ⟨by decide, by decide,
   parseImage_repository_eq_nil_iff ":x@y".toList ":x@y".toList
      { registry := [], namespace_ := "library".toList, repository := ":x".toList,
        tag := [], digest := "y".toList } (by decide) (by decide)⟩

/-- C2, counterexample: the empty input is accepted, and its repository is
empty. -/
theorem parseImage_repository_counterexample :
    parseImage "".toList =
      some { registry := [], namespace_ := "library".toList, repository := [],
             tag := "latest".toList, digest := [] } ∧
    ¬ (∀ (s : Str) (r : imageName), parseImage s = some r → r.repository ≠ []) := by
  refine ⟨by decide, fun hall => ?_⟩
  exact hall "".toList
    { registry := [], namespace_ := "library".toList, repository := [],
      tag := "latest".toList, digest := [] } (by decide) rfl

/-- C4: `parseImage` returns nil if and only if the input splits on `/` into
a number of segments other than 1, 2 or 3, which is if and only if the input
holds three or more `/` characters; every input of 1, 2 or 3 segments yields a
reference. -/
theorem parseImage_fails_iff_segment_count (s : Str) :
    (parseImage s = none ↔
      ¬ ((split '/' s).length = 1 ∨ (split '/' s).length = 2 ∨ (split '/' s).length = 3)) ∧
    (parseImage s = none ↔ 3 ≤ count '/' s) ∧
    (((split '/' s).length = 1 ∨ (split '/' s).length = 2 ∨ (split '/' s).length = 3) →
      ∃ r, parseImage s = some r) := by
  have key : parseImage s = none ↔
      ¬ ((split '/' s).length = 1 ∨ (split '/' s).length = 2 ∨ (split '/' s).length = 3) := by
    unfold parseImage
    rcases hl : split '/' s with _ | ⟨a, _ | ⟨b, _ | ⟨c, _ | ⟨d, t⟩⟩⟩⟩
    · exact absurd hl (split_ne_nil _ _)
    · simp
    · simp only [List.length_cons, List.length_nil]
      split_ifs <;> simp
    · simp
    · simp
  refine ⟨key, ?_, ?_⟩
  · rw [key, length_split]
    omega
  · intro h
    cases hp : parseImage s with
    | none => exact absurd h (key.mp hp)
    | some r => exact ⟨r, rfl⟩

/-- C4 at concrete inputs: four segments are refused, two are accepted. -/
theorem parseImage_fails_iff_segment_count_witness :
    parseImage "a/b/c/d".toList = none ∧ ∃ r, parseImage "team/app".toList = some r :=
  ⟨(parseImage_fails_iff_segment_count "a/b/c/d".toList).2.1.mpr (by decide),
   (parseImage_fails_iff_segment_count "team/app".toList).2.2 (by decide)⟩

/-- C5: in an accepted input, the last `/`-segment is cut at its first `@`
into repository and digest with an empty tag, even when it holds a `:` too;
without `@`, it is cut at its first `:` into repository and tag with an empty
digest; without either, it is the repository, the tag is `latest` and the
digest is empty. -/
theorem parseImage_digest_before_tag (s seg : Str) (r : imageName)
    (h : parseImage s = some r) (hseg : (split '/' s).getLast? = some seg) :
    ('@' ∈ seg → '@' ∉ r.repository ∧ seg = r.repository ++ '@' :: r.digest ∧ r.tag = []) ∧
    ('@' ∉ seg → ':' ∈ seg →
      ':' ∉ r.repository ∧ seg = r.repository ++ ':' :: r.tag ∧ r.digest = []) ∧
    ('@' ∉ seg → ':' ∉ seg →
      r.repository = seg ∧ r.tag = "latest".toList ∧ r.digest = []) :=
  parseImage_last_segment s seg r h hseg

/-- C5 at `app@sha256:abcd...`: repository `app`, digest `sha256:abcd...`,
empty tag, although the segment holds a `:`. -/
theorem parseImage_digest_before_tag_witness :
    parseImage "app@sha256:abcd...".toList =
      some { registry := [], namespace_ := "library".toList, repository := "app".toList,
             tag := [], digest := "sha256:abcd...".toList } ∧
    (split '/' "app@sha256:abcd...".toList).getLast? = some "app@sha256:abcd...".toList ∧
    '@' ∈ "app@sha256:abcd...".toList ∧ ':' ∈ "app@sha256:abcd...".toList ∧
    ('@' ∉ "app".toList ∧
      "app@sha256:abcd...".toList = "app".toList ++ '@' :: "sha256:abcd...".toList ∧
      ([] : Str) = []) :=
  ⟨by decide, by decide, by decide, by decide,
   (parseImage_digest_before_tag "app@sha256:abcd...".toList "app@sha256:abcd...".toList
      { registry := [], namespace_ := "library".toList, repository := "app".toList,
        tag := [], digest := "sha256:abcd...".toList } (by decide) (by decide)).1 (by decide)⟩

/-- C6: a string without `/`, `@` and `:` parses to registry "", namespace
`library`, itself as repository, tag `latest` and an empty digest. -/
theorem parseImage_single_segment (s : Str)
    (h1 : '/' ∉ s) (h2 : '@' ∉ s) (h3 : ':' ∉ s) :
    parseImage s =
      some { registry := [], namespace_ := "library".toList, repository := s,
             tag := "latest".toList, digest := [] } := by
  rw [parseImage_one s h1]
  have hi1 : index '@' s = none := (index_eq_none_iff _ _).mpr h2
  have hi2 : index ':' s = none := (index_eq_none_iff _ _).mpr h3
  simp [scanRepository, hi1, hi2]

/-- C6 at `nginx`. -/
theorem parseImage_single_segment_witness :
    parseImage "nginx".toList =
      some { registry := [], namespace_ := "library".toList, repository := "nginx".toList,
             tag := "latest".toList, digest := [] } :=
  parseImage_single_segment "nginx".toList (by decide) (by decide) (by decide)

/-- C7: an input `a/b` with exactly one `/` is accepted; when `a` holds a `:`
or a `.` the registry is `a` and the namespace `library`, otherwise the
namespace is `a` and the registry is empty; repository, tag and digest are
those that `b` parsed on its own has. -/
theorem parseImage_two_segments (a b : Str) (ha : '/' ∉ a) (hb : '/' ∉ b) :
    ∃ r rb, parseImage (a ++ '/' :: b) = some r ∧ parseImage b = some rb ∧
      ((':' ∈ a ∨ '.' ∈ a) → r.registry = a ∧ r.namespace_ = "library".toList) ∧
      (¬ (':' ∈ a ∨ '.' ∈ a) → r.namespace_ = a ∧ r.registry = []) ∧
      r.repository = rb.repository ∧ r.tag = rb.tag ∧ r.digest = rb.digest := by
  rw [parseImage_two a b ha hb, parseImage_one b hb]
  by_cases hc : containsAny a ":.".toList = true
  · have hc2 := (containsAny_colon_dot a).mp hc
    rw [if_pos hc]
    refine ⟨_, _, rfl, rfl, fun _ => ?_, fun hn => absurd hc2 hn, ?_⟩
    · exact ⟨(scanRepository_spec _ rfl rfl).1, (scanRepository_spec _ rfl rfl).2.1⟩
    · exact scanRepository_congr _ _ rfl rfl rfl
  · have hc2 : ¬ (':' ∈ a ∨ '.' ∈ a) := fun hn => hc ((containsAny_colon_dot a).mpr hn)
    rw [if_neg hc]
    refine ⟨_, _, rfl, rfl, fun hn => absurd hn hc2, fun _ => ?_, ?_⟩
    · exact ⟨(scanRepository_spec _ rfl rfl).2.1, (scanRepository_spec _ rfl rfl).1⟩
    · exact scanRepository_congr _ _ rfl rfl rfl

/-- C7 at `quay.io/app:v1` (a registry) and at `team/app:v1` (a namespace). -/
theorem parseImage_two_segments_witness :
    (∃ r rb, parseImage ("quay.io".toList ++ '/' :: "app:v1".toList) = some r ∧
      parseImage "app:v1".toList = some rb ∧
      ((':' ∈ "quay.io".toList ∨ '.' ∈ "quay.io".toList) →
        r.registry = "quay.io".toList ∧ r.namespace_ = "library".toList) ∧
      (¬ (':' ∈ "quay.io".toList ∨ '.' ∈ "quay.io".toList) →
        r.namespace_ = "quay.io".toList ∧ r.registry = []) ∧
      r.repository = rb.repository ∧ r.tag = rb.tag ∧ r.digest = rb.digest) ∧
    parseImage "quay.io/app:v1".toList =
      some { registry := "quay.io".toList, namespace_ := "library".toList,
             repository := "app".toList, tag := "v1".toList, digest := [] } ∧
    parseImage "team/app:v1".toList =
      some { registry := [], namespace_ := "team".toList,
             repository := "app".toList, tag := "v1".toList, digest := [] } :=
  ⟨parseImage_two_segments "quay.io".toList "app:v1".toList (by decide) (by decide),
   by decide, by decide⟩

/-- C8: an input `a/b/c` with exactly two `/` is accepted with registry `a`
and namespace `b` whatever characters they hold; repository, tag and digest
are those that `c` parsed on its own has. -/
theorem parseImage_three_segments (a b c : Str)
    (ha : '/' ∉ a) (hb : '/' ∉ b) (hc : '/' ∉ c) :
    ∃ r rc, parseImage (a ++ '/' :: (b ++ '/' :: c)) = some r ∧ parseImage c = some rc ∧
      r.registry = a ∧ r.namespace_ = b ∧
      r.repository = rc.repository ∧ r.tag = rc.tag ∧ r.digest = rc.digest := by
  rw [parseImage_three a b c ha hb hc, parseImage_one c hc]
  exact ⟨_, _, rfl, rfl, (scanRepository_spec _ rfl rfl).1, (scanRepository_spec _ rfl rfl).2.1,
    scanRepository_congr _ _ rfl rfl rfl⟩

/-- C8 at `myregistry.io:5000/team/app:v2`. -/
theorem parseImage_three_segments_witness :
    (∃ r rc, parseImage ("myregistry.io:5000".toList ++ '/' :: ("team".toList ++
        '/' :: "app:v2".toList)) = some r ∧
      parseImage "app:v2".toList = some rc ∧
      r.registry = "myregistry.io:5000".toList ∧ r.namespace_ = "team".toList ∧
      r.repository = rc.repository ∧ r.tag = rc.tag ∧ r.digest = rc.digest) ∧
    parseImage "myregistry.io:5000/team/app:v2".toList =
      some { registry := "myregistry.io:5000".toList, namespace_ := "team".toList,
             repository := "app".toList, tag := "v2".toList, digest := [] } :=
  ⟨parseImage_three_segments "myregistry.io:5000".toList "team".toList "app:v2".toList
    (by decide) (by decide) (by decide), by decide⟩

/-! ## The claims on `tagSemVer` -/

/-- C9: whatever parser `tagSemVer` hands its padded string to, a leading `v`
put before a tag that does not begin with `v` changes nothing, and `.0`
appended to a tag with fewer than two dots changes nothing; with
`semver.Parse`, `v1.2` and `1.2.0` both give version 1.2.0, and `v1` and
`1.0.0` both give version 1.0.0. -/
theorem tagSemVer_normalisation :
    (∀ (ε α : Type) (parse : Str → Except ε α) (t : Str), t.head? ≠ some 'v' →
      tagSemVerWith parse ('v' :: t) = tagSemVerWith parse t) ∧
    (∀ (ε α : Type) (parse : Str → Except ε α) (t : Str), count '.' t < 2 →
      tagSemVerWith parse t = tagSemVerWith parse (t ++ ".0".toList)) ∧
    (∀ t : Str, t.head? ≠ some 'v' → tagSemVer ('v' :: t) = tagSemVer t) ∧
    (∀ t : Str, count '.' t < 2 → tagSemVer t = tagSemVer (t ++ ".0".toList)) ∧
    tagSemVer "v1.2".toList =
      .ok { Major := 1, Minor := 2, Patch := 0, Pre := [], Build := [] } ∧
    tagSemVer "1.2.0".toList =
      .ok { Major := 1, Minor := 2, Patch := 0, Pre := [], Build := [] } ∧
    tagSemVer "v1".toList =
      .ok { Major := 1, Minor := 0, Patch := 0, Pre := [], Build := [] } ∧
    tagSemVer "1.0.0".toList =
      .ok { Major := 1, Minor := 0, Patch := 0, Pre := [], Build := [] } := by
  have g1 : ∀ (ε α : Type) (parse : Str → Except ε α) (t : Str), t.head? ≠ some 'v' →
      tagSemVerWith parse ('v' :: t) = tagSemVerWith parse t := by
    intro ε α parse t ht
    unfold tagSemVerWith
    rw [trimPrefix_of_head_ne t ht]
    simp [trimPrefix]
  have g2 : ∀ (ε α : Type) (parse : Str → Except ε α) (t : Str), count '.' t < 2 →
      tagSemVerWith parse t = tagSemVerWith parse (t ++ ".0".toList) := by
    intro ε α parse t ht
    unfold tagSemVerWith
    rw [trimPrefix_append_dot_zero]
    rw [padZeros_of_lt (trimPrefix 'v' t) (by rw [count_trimPrefix]; exact ht)]
  have p1 : padZeros "1.2".toList = "1.2.0".toList := by
    rw [padZeros_of_lt _ (by decide), padZeros_of_not_lt _ (by decide)]
    rfl
  have p2 : padZeros "1.2.0".toList = "1.2.0".toList := padZeros_of_not_lt _ (by decide)
  have p3 : padZeros "1".toList = "1.0.0".toList := by
    rw [padZeros_of_lt _ (by decide), padZeros_of_lt _ (by decide),
      padZeros_of_not_lt _ (by decide)]
    rfl
  have p4 : padZeros "1.0.0".toList = "1.0.0".toList := padZeros_of_not_lt _ (by decide)
  have t1 : trimPrefix 'v' "v1.2".toList = "1.2".toList := by decide
  have t2 : trimPrefix 'v' "1.2.0".toList = "1.2.0".toList := by decide
  have t3 : trimPrefix 'v' "v1".toList = "1".toList := by decide
  have t4 : trimPrefix 'v' "1.0.0".toList = "1.0.0".toList := by decide
  refine ⟨g1, g2, fun t ht => g1 _ _ Parse t ht, fun t ht => g2 _ _ Parse t ht, ?_, ?_, ?_, ?_⟩
  · unfold tagSemVer tagSemVerWith
    rw [t1, p1]
    decide
  · unfold tagSemVer tagSemVerWith
    rw [t2, p2]
    decide
  · unfold tagSemVer tagSemVerWith
    rw [t3, p3]
    decide
  · unfold tagSemVer tagSemVerWith
    rw [t4, p4]
    decide

/-- C9 at `1.2` and `v1.2`, and at `1` and `1.0`. -/
theorem tagSemVer_normalisation_witness :
    tagSemVer ('v' :: "1.2".toList) = tagSemVer "1.2".toList ∧
    tagSemVer "1".toList = tagSemVer ("1".toList ++ ".0".toList) :=
  ⟨tagSemVer_normalisation.2.2.1 "1.2".toList (by decide),
   tagSemVer_normalisation.2.2.2.1 "1".toList (by decide)⟩

/-- C10: when the first dot-separated component of a tag, one leading `v`
trimmed, is not a non-empty string of decimal digits, `tagSemVer` returns an
error. -/
theorem tagSemVer_rejects_non_numeric (t : Str)
    (h : ¬ ((split '.' (trimPrefix 'v' t)).headD [] ≠ [] ∧
      ∀ c ∈ (split '.' (trimPrefix 'v' t)).headD [], c ∈ numbers)) :
    ∃ e, tagSemVer t = .error e := by
  unfold tagSemVer tagSemVerWith
  obtain ⟨h1, h2⟩ := padZeros_spec (trimPrefix 'v' t)
  apply Parse_error_of_major _ h1
  rw [h2]
  exact h

/-- C10 at `latest`, at `V1.2.3` (a capital `V` is not trimmed) and at
`vv1.2.3` (one `v` only is trimmed): all three are refused. -/
theorem tagSemVer_rejects_non_numeric_witness :
    (∃ e, tagSemVer "latest".toList = .error e) ∧
    (∃ e, tagSemVer "V1.2.3".toList = .error e) ∧
    (∃ e, tagSemVer "vv1.2.3".toList = .error e) :=
  ⟨tagSemVer_rejects_non_numeric "latest".toList (by decide),
   tagSemVer_rejects_non_numeric "V1.2.3".toList (by decide),
   tagSemVer_rejects_non_numeric "vv1.2.3".toList (by decide)⟩

/-! ## Lemmas on `registryCache.Get` -/

theorem Get_hit {W H E V P : Type} (T : Transport W H E) (r : registryCache H) (w : W)
    (reg : Str) (hub : H) (h : r reg = some hub) :
    (registryCache.Get T r w reg : GetResult W H E V P) =
      { result := .ok hub, cache := r, world := w, events := [.logHit reg hub] } := by
  unfold registryCache.Get
  rw [h]

theorem Get_miss_error {W H E V P : Type} (T : Transport W H E) (r : registryCache H) (w : W)
    (reg : Str) (err : E) (w1 : W) (h : r reg = none)
    (hn : T.New (registryURL reg) [] [] w = (.error err, w1)) :
    (registryCache.Get T r w reg : GetResult W H E V P) =
      { result := .error err, cache := r, world := w1,
        events := [.newCall (registryURL reg) [] [] (.error err)] } := by
  unfold registryCache.Get
  rw [h]
  simp only [hn]

theorem Get_miss_ok {W H E V P : Type} (T : Transport W H E) (r : registryCache H) (w : W)
    (reg : Str) (hub : H) (w1 : W) (h : r reg = none)
    (hn : T.New (registryURL reg) [] [] w = (.ok hub, w1)) :
    (registryCache.Get T r w reg : GetResult W H E V P) =
      { result := .ok hub, cache := r.set reg hub, world := w1,
        events := [.newCall (registryURL reg) [] [] (.ok hub), .logMiss reg hub] } := by
  unfold registryCache.Get
  rw [h]
  simp only [hn]

/-- The three ways a call of `Get` can go. -/
theorem Get_cases {W H E V P : Type} (T : Transport W H E) (r : registryCache H) (w : W)
    (reg : Str) :
    (∃ hub, r reg = some hub ∧
      (registryCache.Get T r w reg : GetResult W H E V P) =
        { result := .ok hub, cache := r, world := w, events := [.logHit reg hub] }) ∨
    (∃ err w1, r reg = none ∧ T.New (registryURL reg) [] [] w = (.error err, w1) ∧
      (registryCache.Get T r w reg : GetResult W H E V P) =
        { result := .error err, cache := r, world := w1,
          events := [.newCall (registryURL reg) [] [] (.error err)] }) ∨
    (∃ hub w1, r reg = none ∧ T.New (registryURL reg) [] [] w = (.ok hub, w1) ∧
      (registryCache.Get T r w reg : GetResult W H E V P) =
        { result := .ok hub, cache := r.set reg hub, world := w1,
          events := [.newCall (registryURL reg) [] [] (.ok hub), .logMiss reg hub] }) := by
  cases h : r reg with
  | some hub => exact Or.inl ⟨hub, rfl, Get_hit T r w reg hub h⟩
  | none =>
    rcases hn : T.New (registryURL reg) [] [] w with ⟨res, w1⟩
    cases res with
    | error err => exact Or.inr (Or.inl ⟨err, w1, rfl, rfl, Get_miss_error T r w reg err w1 h hn⟩)
    | ok hub => exact Or.inr (Or.inr ⟨hub, w1, rfl, rfl, Get_miss_ok T r w reg hub w1 h hn⟩)

theorem set_of_ne {H : Type} (r : registryCache H) (reg k : Str) (hub : H) (h : k ≠ reg) :
    r.set reg hub k = r k := by
  simp [registryCache.set, h]

theorem set_self {H : Type} (r : registryCache H) (reg : Str) (hub : H) :
    r.set reg hub reg = some hub := by
  simp [registryCache.set]

/-- A call of `Get` leaves every other key of the map as it was. -/
theorem Get_cache_of_ne {W H E V P : Type} (T : Transport W H E) (r : registryCache H)
    (w : W) (reg k : Str) (h : k ≠ reg) :
    (registryCache.Get T r w reg : GetResult W H E V P).cache k = r k := by
  rcases Get_cases (V := V) (P := P) T r w reg with
    ⟨hub, _, hg⟩ | ⟨err, w1, _, _, hg⟩ | ⟨hub, w1, _, _, hg⟩
  · rw [hg]
  · rw [hg]
  · rw [hg]
    exact set_of_ne r reg k hub h

/-- A call of `Get` keeps every handle the map holds. -/
theorem Get_cache_of_some {W H E V P : Type} (T : Transport W H E) (r : registryCache H)
    (w : W) (reg k : Str) (hub : H) (h : r k = some hub) :
    (registryCache.Get T r w reg : GetResult W H E V P).cache k = some hub := by
  by_cases hk : k = reg
  · subst hk
    rw [Get_hit T r w k hub h]
    exact h
  · rw [Get_cache_of_ne T r w reg k hk]
    exact h

/-! ## The claims on `registryCache.Get` -/

/-- C13: when the cache holds a handle for the host, `Get` returns that
handle and no error, makes no call to the transport (the world is as before,
no event is a transport call) and leaves the map as it was. -/
theorem registryCache_Get_hit {W H E V P : Type} (T : Transport W H E)
    (r : registryCache H) (w : W) (reg : Str) (hub : H) (h : r reg = some hub) :
    (registryCache.Get T r w reg : GetResult W H E V P).result = .ok hub ∧
    (registryCache.Get T r w reg : GetResult W H E V P).cache = r ∧
    (registryCache.Get T r w reg : GetResult W H E V P).world = w ∧
    (registryCache.Get T r w reg : GetResult W H E V P).events = [.logHit reg hub] ∧
    (∀ e ∈ (registryCache.Get T r w reg : GetResult W H E V P).events,
      e.isTransportCall = false) := by
  rw [Get_hit T r w reg hub h]
  refine ⟨rfl, rfl, rfl, rfl, ?_⟩
  intro e he
  simp only [List.mem_singleton] at he
  rw [he]
  rfl

/-- C13 on a cache that holds the handle `hub1` for the host `quay.io`. -/
theorem registryCache_Get_hit_witness :
    ((registryCache.empty Str).set "quay.io".toList "hub1".toList) "quay.io".toList =
      some "hub1".toList ∧
    (registryCache.Get flakyTransport
        ((registryCache.empty Str).set "quay.io".toList "hub1".toList) 0 "quay.io".toList :
      GetResult Nat Str Unit Version ParseError).result = .ok "hub1".toList ∧
    (registryCache.Get flakyTransport
        ((registryCache.empty Str).set "quay.io".toList "hub1".toList) 0 "quay.io".toList :
      GetResult Nat Str Unit Version ParseError).world = 0 :=
  ⟨by decide,
   (registryCache_Get_hit flakyTransport
      ((registryCache.empty Str).set "quay.io".toList "hub1".toList) 0 "quay.io".toList
      "hub1".toList (by decide)).1,
   (registryCache_Get_hit flakyTransport
      ((registryCache.empty Str).set "quay.io".toList "hub1".toList) 0 "quay.io".toList
      "hub1".toList (by decide)).2.2.1⟩

/-- C15: when the cache holds no handle for the host and `registry.New`
fails, `Get` returns the error and no handle, the map is as it was, and the
next `Get` for the host calls `registry.New` again. -/
theorem registryCache_Get_failure {W H E V P : Type} (T : Transport W H E)
    (r : registryCache H) (w w1 : W) (reg : Str) (err : E) (h : r reg = none)
    (hn : T.New (registryURL reg) [] [] w = (.error err, w1)) :
    (registryCache.Get T r w reg : GetResult W H E V P).result = .error err ∧
    (registryCache.Get T r w reg : GetResult W H E V P).cache = r ∧
    (registryCache.Get T r w reg : GetResult W H E V P).world = w1 ∧
    (registryCache.Get T
        (registryCache.Get T r w reg : GetResult W H E V P).cache
        (registryCache.Get T r w reg : GetResult W H E V P).world reg :
      GetResult W H E V P).events.head? =
      some (.newCall (registryURL reg) [] [] (T.New (registryURL reg) [] [] w1).1) := by
  rw [Get_miss_error T r w reg err w1 h hn]
  refine ⟨rfl, rfl, rfl, ?_⟩
  rcases Get_cases (V := V) (P := P) T r w1 reg with
    ⟨hub, h2, _⟩ | ⟨err2, w2, _, hn2, hg⟩ | ⟨hub, w2, _, hn2, hg⟩
  · rw [h] at h2
    cases h2
  · simp only [hg, hn2, List.head?_cons]
  · simp only [hg, hn2, List.head?_cons]

/-- C15 on the empty cache and the transport whose first call fails: the
first `Get` gives the error and leaves the world at 1, the second calls
`registry.New` again. -/
theorem registryCache_Get_failure_witness :
    (registryCache.Get flakyTransport (registryCache.empty Str) 0 "quay.io".toList :
      GetResult Nat Str Unit Version ParseError).result = .error () ∧
    (registryCache.Get flakyTransport (registryCache.empty Str) 0 "quay.io".toList :
      GetResult Nat Str Unit Version ParseError).world = 1 :=
  ⟨(registryCache_Get_failure flakyTransport (registryCache.empty Str) 0 1 "quay.io".toList ()
      rfl rfl).1,
   (registryCache_Get_failure flakyTransport (registryCache.empty Str) 0 1 "quay.io".toList ()
      rfl rfl).2.2.1⟩

/-- C16: whatever the transport answers, a call of `Get` keeps every handle
the map held, changes no key but the one asked for, and at that key either
leaves the map as it was or fills an empty place. -/
theorem registryCache_Get_grows {W H E V P : Type} (T : Transport W H E)
    (r : registryCache H) (w : W) (reg : Str) :
    (∀ k hub, r k = some hub →
      (registryCache.Get T r w reg : GetResult W H E V P).cache k = some hub) ∧
    (∀ k, k ≠ reg → (registryCache.Get T r w reg : GetResult W H E V P).cache k = r k) ∧
    ((registryCache.Get T r w reg : GetResult W H E V P).cache = r ∨
      (r reg = none ∧
        ∃ hub, (registryCache.Get T r w reg : GetResult W H E V P).cache = r.set reg hub)) := by
  refine ⟨fun k hub hk => Get_cache_of_some T r w reg k hub hk,
    fun k hk => Get_cache_of_ne T r w reg k hk, ?_⟩
  rcases Get_cases (V := V) (P := P) T r w reg with
    ⟨hub, _, hg⟩ | ⟨err, w1, _, _, hg⟩ | ⟨hub, w1, h, _, hg⟩
  · rw [hg]
    exact Or.inl rfl
  · rw [hg]
    exact Or.inl rfl
  · rw [hg]
    exact Or.inr ⟨h, hub, rfl⟩

/-- C16 on a cache that holds `quay.io`: a `Get` for `gcr.io` that opens a
new handle keeps the one of `quay.io`. -/
theorem registryCache_Get_grows_witness :
    (registryCache.Get flakyTransport
        ((registryCache.empty Str).set "quay.io".toList "hub1".toList) 1 "gcr.io".toList :
      GetResult Nat Str Unit Version ParseError).cache "quay.io".toList = some "hub1".toList :=
  (registryCache_Get_grows flakyTransport
      ((registryCache.empty Str).set "quay.io".toList "hub1".toList) 1 "gcr.io".toList).1
    "quay.io".toList "hub1".toList (by decide)

/-! ## Lemmas on runs of `Get` calls -/

theorem GetSeq_cons {W H E V P : Type} (T : Transport W H E) (reg : Str) (regs : List Str)
    (r : registryCache H) (w : W) :
    registryCache.GetSeq (V := V) (P := P) T (reg :: regs) r w =
      ((reg, (registryCache.Get (V := V) (P := P) T r w reg).events) ::
          (registryCache.GetSeq (V := V) (P := P) T regs
            (registryCache.Get (V := V) (P := P) T r w reg).cache
            (registryCache.Get (V := V) (P := P) T r w reg).world).1,
        (registryCache.GetSeq (V := V) (P := P) T regs
          (registryCache.Get (V := V) (P := P) T r w reg).cache
          (registryCache.Get (V := V) (P := P) T r w reg).world).2) := rfl

theorem eventsFor_cons_self {H E V P : Type} (reg : Str) (evs : List (Event H E V P))
    (rest : List (Str × List (Event H E V P))) :
    eventsFor reg ((reg, evs) :: rest) = evs ++ eventsFor reg rest := by
  simp [eventsFor]

theorem eventsFor_cons_of_ne {H E V P : Type} (reg k : Str) (evs : List (Event H E V P))
    (rest : List (Str × List (Event H E V P))) (h : k ≠ reg) :
    eventsFor reg ((k, evs) :: rest) = eventsFor reg rest := by
  simp [eventsFor, h]

theorem countP_newCall_split {H E V P : Type} (evs : List (Event H E V P)) :
    evs.countP Event.isNewCall =
      evs.countP Event.isNewCallError + evs.countP Event.isNewCallOk := by
  induction evs with
  | nil => rfl
  | cons e es ih =>
    simp only [List.countP_cons, ih]
    cases e with
    | newCall url u p res =>
      cases res <;> simp [Event.isNewCall, Event.isNewCallError, Event.isNewCallOk] <;> omega
    | _ => simp [Event.isNewCall, Event.isNewCallError, Event.isNewCallOk]

/-- Every call of `registry.New` made for a host has the URL of that host and
empty credentials. -/
theorem GetSeq_newCall_url {W H E V P : Type} (T : Transport W H E) (regs : List Str)
    (r : registryCache H) (w : W) (reg : Str) :
    ∀ e ∈ eventsFor reg (registryCache.GetSeq T regs r w :
        List (Str × List (Event H E V P)) × registryCache H × W).1,
      e.isNewCall = true → ∃ res, e = .newCall (registryURL reg) [] [] res := by
  induction regs generalizing r w with
  | nil =>
    intro e he
    simp [registryCache.GetSeq, eventsFor] at he
  | cons k ks ih =>
    intro e he hn
    rw [GetSeq_cons] at he
    by_cases hk : k = reg
    · subst hk
      rw [eventsFor_cons_self, List.mem_append] at he
      rcases he with he | he
      · rcases Get_cases (V := V) (P := P) T r w k with
          ⟨hub, _, hg⟩ | ⟨err, w1, _, _, hg⟩ | ⟨hub, w1, _, _, hg⟩
        · rw [hg] at he
          simp only [List.mem_singleton] at he
          rw [he] at hn
          cases hn
        · rw [hg] at he
          simp only [List.mem_singleton] at he
          exact ⟨_, he⟩
        · rw [hg] at he
          simp only [List.mem_cons, List.mem_singleton, List.not_mem_nil, or_false] at he
          rcases he with he | he
          · exact ⟨_, he⟩
          · rw [he] at hn
            cases hn
      · exact ih _ _ e he hn
    · rw [eventsFor_cons_of_ne _ _ _ _ hk] at he
      exact ih _ _ e he hn

/-- Once the map holds a handle for a host, a run of `Get` calls keeps it and
never calls `registry.New` for that host. -/
theorem GetSeq_of_some {W H E V P : Type} (T : Transport W H E) (regs : List Str)
    (r : registryCache H) (w : W) (reg : Str) (hub : H) (hr : r reg = some hub) :
    (registryCache.GetSeq T regs r w :
        List (Str × List (Event H E V P)) × registryCache H × W).2.1 reg = some hub ∧
    (eventsFor reg (registryCache.GetSeq T regs r w :
        List (Str × List (Event H E V P)) × registryCache H × W).1).countP
      Event.isNewCall = 0 := by
  induction regs generalizing r w with
  | nil => exact ⟨hr, rfl⟩
  | cons k ks ih =>
    rw [GetSeq_cons]
    have hc := Get_cache_of_some (V := V) (P := P) T r w k reg hub hr
    obtain ⟨i1, i2⟩ := ih _ (registryCache.Get T r w k : GetResult W H E V P).world hc
    refine ⟨i1, ?_⟩
    by_cases hk : k = reg
    · subst hk
      rw [eventsFor_cons_self, List.countP_append, i2, Get_hit T r w k hub hr]
      rfl
    · rw [eventsFor_cons_of_ne _ _ _ _ hk]
      exact i2

/-- Starting without a handle for a host, a run of `Get` calls has one
successful `registry.New` for it when the map holds a handle at the end, and
none otherwise. -/
theorem GetSeq_ok_count {W H E V P : Type} (T : Transport W H E) (regs : List Str)
    (r : registryCache H) (w : W) (reg : Str) (hr : r reg = none) :
    (eventsFor reg (registryCache.GetSeq T regs r w :
        List (Str × List (Event H E V P)) × registryCache H × W).1).countP
      Event.isNewCallOk =
      if ((registryCache.GetSeq T regs r w :
        List (Str × List (Event H E V P)) × registryCache H × W).2.1 reg).isSome
      then 1 else 0 := by
  induction regs generalizing r w with
  | nil => simp [registryCache.GetSeq, eventsFor, hr]
  | cons k ks ih =>
    rw [GetSeq_cons]
    by_cases hk : k = reg
    · subst hk
      rw [eventsFor_cons_self, List.countP_append]
      rcases Get_cases (V := V) (P := P) T r w k with
        ⟨hub, h2, _⟩ | ⟨err, w1, _, _, hg⟩ | ⟨hub, w1, _, _, hg⟩
      · rw [hr] at h2
        cases h2
      · rw [hg]
        simp only
        rw [ih r w1 hr]
        simp [Event.isNewCallOk]
      · rw [hg]
        simp only
        obtain ⟨i1, i2⟩ := GetSeq_of_some (V := V) (P := P) T ks (r.set k hub) w1 k hub
          (set_self r k hub)
        rw [i1]
        have i3 := countP_newCall_split
          (eventsFor k (registryCache.GetSeq T ks (r.set k hub) w1 :
            List (Str × List (Event H E V P)) × registryCache H × W).1)
        have i4 : (eventsFor k (registryCache.GetSeq T ks (r.set k hub) w1 :
            List (Str × List (Event H E V P)) × registryCache H × W).1).countP
            Event.isNewCallOk = 0 := by omega
        rw [i4]
        simp [Event.isNewCallOk]
    · rw [eventsFor_cons_of_ne _ _ _ _ hk]
      simp only
      have hc : (registryCache.Get T r w k : GetResult W H E V P).cache reg = none := by
        rw [Get_cache_of_ne T r w k reg (fun e => hk e.symm)]
        exact hr
      exact ih _ _ hc

/-- A host that is asked for, and for which no `registry.New` fails, has a
handle at the end of the run. -/
theorem GetSeq_cached_of_no_error {W H E V P : Type} (T : Transport W H E) (regs : List Str)
    (r : registryCache H) (w : W) (reg : Str) (hmem : reg ∈ regs)
    (hz : (eventsFor reg (registryCache.GetSeq T regs r w :
        List (Str × List (Event H E V P)) × registryCache H × W).1).countP
      Event.isNewCallError = 0) :
    ((registryCache.GetSeq T regs r w :
        List (Str × List (Event H E V P)) × registryCache H × W).2.1 reg).isSome = true := by
  induction regs generalizing r w with
  | nil => simp at hmem
  | cons k ks ih =>
    rw [GetSeq_cons] at hz ⊢
    by_cases hk : k = reg
    · subst hk
      rw [eventsFor_cons_self, List.countP_append] at hz
      rcases Get_cases (V := V) (P := P) T r w k with
        ⟨hub, h2, hg⟩ | ⟨err, w1, _, _, hg⟩ | ⟨hub, w1, _, _, hg⟩
      · rw [hg]
        simp only
        rw [(GetSeq_of_some (V := V) (P := P) T ks r w k hub h2).1]
        rfl
      · rw [hg] at hz
        simp [Event.isNewCallError] at hz
      · rw [hg]
        simp only
        rw [(GetSeq_of_some (V := V) (P := P) T ks (r.set k hub) w1 k hub
          (set_self r k hub)).1]
        rfl
    · rw [eventsFor_cons_of_ne _ _ _ _ hk] at hz
      have hm2 : reg ∈ ks := by
        rcases List.mem_cons.mp hmem with e | e
        · exact absurd e.symm hk
        · exact e
      exact ih _ _ hm2 hz

/-- C14, as amended: in a run of `Get` calls on an empty cache, for a host
asked for at least once, every call of `registry.New` made for it has the URL
of the host (`dockerHubURL` for the empty host, `https://` and the host
otherwise) and empty credentials; at most one of these calls succeeds; and
when none of them fails, `registry.New` is called exactly once for the host. -/
theorem registryCache_GetSeq_opens {W H E V P : Type} (T : Transport W H E) (w : W)
    (regs : List Str) (reg : Str) (hmem : reg ∈ regs) :
    (∀ e ∈ eventsFor reg
        (registryCache.GetSeq (V := V) (P := P) T regs (registryCache.empty H) w).1,
      e.isNewCall = true → ∃ res, e = .newCall (registryURL reg) [] [] res) ∧
    registryURL [] = "https://registry-1.docker.io/".toList ∧
    (reg ≠ [] → registryURL reg = "https://".toList ++ reg) ∧
    (eventsFor reg
        (registryCache.GetSeq (V := V) (P := P) T regs (registryCache.empty H) w).1).countP
      Event.isNewCallOk ≤ 1 ∧
    (eventsFor reg
        (registryCache.GetSeq (V := V) (P := P) T regs (registryCache.empty H) w).1).countP
      Event.isNewCall =
      (eventsFor reg
        (registryCache.GetSeq (V := V) (P := P) T regs (registryCache.empty H) w).1).countP
        Event.isNewCallError +
      (eventsFor reg
        (registryCache.GetSeq (V := V) (P := P) T regs (registryCache.empty H) w).1).countP
        Event.isNewCallOk ∧
    ((eventsFor reg
        (registryCache.GetSeq (V := V) (P := P) T regs (registryCache.empty H) w).1).countP
      Event.isNewCallError = 0 →
      (eventsFor reg
        (registryCache.GetSeq (V := V) (P := P) T regs (registryCache.empty H) w).1).countP
      Event.isNewCall = 1) := by
  have hok := GetSeq_ok_count (V := V) (P := P) T regs (registryCache.empty H) w reg rfl
  have hsplit := countP_newCall_split
    (eventsFor reg (registryCache.GetSeq (V := V) (P := P) T regs (registryCache.empty H) w).1)
  refine ⟨GetSeq_newCall_url T regs _ w reg, rfl, ?_, ?_, hsplit, ?_⟩
  · intro hne
    simp [registryURL, hne]
  · rw [hok]
    split_ifs <;> omega
  · intro hz
    have hc := GetSeq_cached_of_no_error (V := V) (P := P) T regs (registryCache.empty H) w reg
      hmem hz
    rw [hc] at hok
    simp only [if_true] at hok
    omega

/-- C14 on the run `quay.io`, `quay.io`, `quay.io` with the transport whose
first call fails: `registry.New` is called twice for the host, once with an
error and once with a handle. -/
theorem registryCache_GetSeq_opens_witness :
    "quay.io".toList ∈ ["quay.io".toList, "quay.io".toList, "quay.io".toList] ∧
    (eventsFor "quay.io".toList
        (registryCache.GetSeq (V := Version) (P := ParseError) flakyTransport
          ["quay.io".toList, "quay.io".toList, "quay.io".toList]
          (registryCache.empty Str) 0).1).countP Event.isNewCallOk ≤ 1 ∧
    (eventsFor "quay.io".toList
        (registryCache.GetSeq (V := Version) (P := ParseError) flakyTransport
          ["quay.io".toList, "quay.io".toList, "quay.io".toList]
          (registryCache.empty Str) 0).1).countP Event.isNewCall = 2 :=
  ⟨by decide,
   (registryCache_GetSeq_opens (V := Version) (P := ParseError) flakyTransport 0
      ["quay.io".toList, "quay.io".toList, "quay.io".toList] "quay.io".toList
      (by decide)).2.2.2.1,
   by decide⟩

/-- C14, counterexample: with a transport whose first call fails, two `Get`
calls for the empty host on an empty cache call `registry.New` twice, both
times with `dockerHubURL`. -/
theorem registryCache_GetSeq_opens_counterexample :
    (registryCache.GetSeq (V := Version) (P := ParseError) flakyTransport [[], []]
        (registryCache.empty Str) 0).1 =
      [([], [.newCall "https://registry-1.docker.io/".toList [] [] (.error ())]),
       ([], [.newCall "https://registry-1.docker.io/".toList [] []
              (.ok "https://registry-1.docker.io/".toList),
             .logMiss [] "https://registry-1.docker.io/".toList])] ∧
    (eventsFor []
        (registryCache.GetSeq (V := Version) (P := ParseError) flakyTransport [[], []]
          (registryCache.empty Str) 0).1).countP Event.isNewCall = 2 := by
  constructor
  · rfl
  · decide

/-! ## Lemmas on the loop of `main2` -/

theorem evalLoop_append {W H E V P : Type} (parse : Str → Except P V) (gt : V → V → Bool)
    (T : Transport W H E) (l1 l2 : List (Str × List Pod)) (st : LoopState W H) :
    evalLoop (E := E) parse gt T (l1 ++ l2) st =
      ((evalLoop (E := E) parse gt T l2 (evalLoop (E := E) parse gt T l1 st).1).1,
        (evalLoop (E := E) parse gt T l1 st).2 ++
          (evalLoop (E := E) parse gt T l2 (evalLoop (E := E) parse gt T l1 st).1).2) := by
  induction l1 generalizing st with
  | nil => simp [evalLoop]
  | cons x xs ih =>
    obtain ⟨imgName, pods⟩ := x
    simp only [List.cons_append, evalLoop, List.append_eq, ih, List.append_assoc]

theorem evalImage_of_parse_none {W H E V P : Type} (parse : Str → Except P V)
    (gt : V → V → Bool) (T : Transport W H E) (imgName : Str) (pods : List Pod)
    (st : LoopState W H) (h : parseImage imgName = none) :
    evalImage (E := E) parse gt T imgName pods st = (st, [.logUnableToParseImage imgName]) := by
  unfold evalImage
  rw [h]

theorem evalImage_of_tag_nil {W H E V P : Type} (parse : Str → Except P V)
    (gt : V → V → Bool) (T : Transport W H E) (imgName : Str) (pods : List Pod)
    (st : LoopState W H) (img : imageName) (h : parseImage imgName = some img)
    (ht : img.tag = []) :
    evalImage (E := E) parse gt T imgName pods st = (st, [.logImage img]) := by
  unfold evalImage
  rw [h]
  simp only [ht, if_true]

/-- The events of a call of `Get` hold no "Newer tag found" line. -/
theorem Get_events_newerTag {W H E V P : Type} (T : Transport W H E) (r : registryCache H)
    (w : W) (reg : Str) :
    (registryCache.Get (V := V) (P := P) T r w reg).events.filterMap Event.newerTag? = [] := by
  rcases Get_cases (V := V) (P := P) T r w reg with
    ⟨hub, _, hg⟩ | ⟨err, w1, _, _, hg⟩ | ⟨hub, w1, _, _, hg⟩ <;>
  · rw [hg]
    rfl

/-- The "Newer tag found" lines of the loop over the remote tags. -/
theorem reportTags_newerTag {H E V P : Type} (parse : Str → Except P V) (gt : V → V → Bool)
    (ver : V) (ts : List Str) :
    (reportTags (H := H) (E := E) parse gt ver ts).filterMap Event.newerTag? =
      ts.filterMap (fun t =>
        match tagSemVerWith parse t with
        | .ok tagv => if gt tagv ver then some tagv else none
        | .error _ => none) := by
  induction ts with
  | nil => rfl
  | cons t ts ih =>
    unfold reportTags
    cases ht : tagSemVerWith parse t with
    | error err =>
      simp only [List.filterMap_cons, Event.newerTag?, ht]
      exact ih
    | ok tagv =>
      by_cases hg : gt tagv ver = true
      · simp only [hg, if_true, List.filterMap_cons, Event.newerTag?, ht]
        rw [ih]
      · simp only [hg, if_false, List.filterMap_cons, ht]
        exact ih

theorem usedBy_newerTag {H E V P : Type} (pods : List Pod) :
    (pods.map (fun pod => (Event.logUsedBy pod.Namespace pod.Name : Event H E V P))).filterMap
      Event.newerTag? = [] := by
  induction pods with
  | nil => rfl
  | cons p ps ih =>
    simp only [List.map_cons, List.filterMap_cons, Event.newerTag?]
    exact ih

/-- The step of the loop for an image whose tag is a version, whose registry
opens and whose tags are listed. -/
theorem evalImage_of_tags {W H E V P : Type} (parse : Str → Except P V) (gt : V → V → Bool)
    (T : Transport W H E) (imgName : Str) (pods : List Pod) (st : LoopState W H)
    (img : imageName) (ver : V) (hub : H) (tags : List Str) (w2 : W)
    (h : parseImage imgName = some img) (ht : img.tag ≠ [])
    (hv : tagSemVerWith parse img.tag = .ok ver)
    (hg : (registryCache.Get (V := V) (P := P) T st.cache st.world img.registry).result =
      .ok hub)
    (hl : T.Tags hub (img.namespace_ ++ ("/".toList ++ img.repository))
      (registryCache.Get (V := V) (P := P) T st.cache st.world img.registry).world =
        (.ok tags, w2)) :
    evalImage (E := E) parse gt T imgName pods st =
      ({ cache := (registryCache.Get (V := V) (P := P) T st.cache st.world img.registry).cache,
         world := w2 },
        .logImage img ::
          ((registryCache.Get (V := V) (P := P) T st.cache st.world img.registry).events ++
            (.tagsCall hub (img.namespace_ ++ ("/".toList ++ img.repository)) ::
              (reportTags parse gt ver tags ++
                pods.map (fun pod => .logUsedBy pod.Namespace pod.Name))))) := by
  unfold evalImage
  rw [h]
  simp only [ht, if_false, hv, hg, hl]

theorem tagSemVerWith_eq {ε α : Type} (parse : Str → Except ε α) (t u w : Str)
    (h1 : trimPrefix 'v' t = u) (h2 : padZeros u = w) : tagSemVerWith parse t = parse w := by
  unfold tagSemVerWith
  rw [h1, h2]

theorem tagSemVer_1_1_0 :
    tagSemVerWith Parse "1.1.0".toList = .ok ⟨1, 1, 0, [], []⟩ := by
  rw [tagSemVerWith_eq Parse _ "1.1.0".toList "1.1.0".toList (by decide)
    (padZeros_of_not_lt _ (by decide))]
  decide

theorem tagSemVer_1_2_0 :
    tagSemVerWith Parse "1.2.0".toList = .ok ⟨1, 2, 0, [], []⟩ := by
  rw [tagSemVerWith_eq Parse _ "1.2.0".toList "1.2.0".toList (by decide)
    (padZeros_of_not_lt _ (by decide))]
  decide

theorem tagSemVer_1_3_0 :
    tagSemVerWith Parse "1.3.0".toList = .ok ⟨1, 3, 0, [], []⟩ := by
  rw [tagSemVerWith_eq Parse _ "1.3.0".toList "1.3.0".toList (by decide)
    (padZeros_of_not_lt _ (by decide))]
  decide

theorem tagSemVer_v1_4 :
    tagSemVerWith Parse "v1.4".toList = .ok ⟨1, 4, 0, [], []⟩ := by
  have hp : padZeros "1.4".toList = "1.4.0".toList := by
    rw [padZeros_of_lt _ (by decide), padZeros_of_not_lt _ (by decide)]
    rfl
  rw [tagSemVerWith_eq Parse _ "1.4".toList "1.4.0".toList (by decide) hp]
  decide

theorem tagSemVer_latest :
    tagSemVerWith Parse "latest".toList =
      .error (.invalidCharacters .major "latest".toList) := by
  have hp : padZeros "latest".toList = "latest.0.0".toList := by
    rw [padZeros_of_lt _ (by decide), padZeros_of_lt _ (by decide),
      padZeros_of_not_lt _ (by decide)]
    rfl
  rw [tagSemVerWith_eq Parse _ "latest".toList "latest.0.0".toList (by decide) hp]
  decide

/-! ## The claims on the loop of `main2` -/

/-- C17: an image string that `parseImage` rejects leaves one log line and
nothing else: the loop ends in the same state (cache and world) as on the
inventory without the entry, its events are those of that run with the line
"Unable to parse image" put in at the entry's place, and the entry's own step
makes no call of `Get` or of the transport. -/
theorem evalLoop_unparsable_isolated {W H E V P : Type} (parse : Str → Except P V)
    (gt : V → V → Bool) (T : Transport W H E) (before after : List (Str × List Pod))
    (imgName : Str) (pods : List Pod) (st : LoopState W H)
    (h : parseImage imgName = none) :
    (evalLoop (E := E) parse gt T (before ++ (imgName, pods) :: after) st).1 =
      (evalLoop (E := E) parse gt T (before ++ after) st).1 ∧
    (evalLoop (E := E) parse gt T (before ++ after) st).2 =
      (evalLoop (E := E) parse gt T before st).2 ++
        (evalLoop (E := E) parse gt T after (evalLoop (E := E) parse gt T before st).1).2 ∧
    (evalLoop (E := E) parse gt T (before ++ (imgName, pods) :: after) st).2 =
      (evalLoop (E := E) parse gt T before st).2 ++
        .logUnableToParseImage imgName ::
          (evalLoop (E := E) parse gt T after (evalLoop (E := E) parse gt T before st).1).2 ∧
    (∀ keep : Event H E V P → Bool, keep (.logUnableToParseImage imgName) = false →
      (evalLoop (E := E) parse gt T (before ++ (imgName, pods) :: after) st).2.filter keep =
        (evalLoop (E := E) parse gt T (before ++ after) st).2.filter keep) ∧
    (∀ st1 : LoopState W H,
      evalImage (E := E) parse gt T imgName pods st1 =
        (st1, [.logUnableToParseImage imgName])) := by
  have hstep : ∀ st1 : LoopState W H,
      evalImage (E := E) parse gt T imgName pods st1 =
        (st1, [.logUnableToParseImage imgName]) :=
    fun st1 => evalImage_of_parse_none parse gt T imgName pods st1 h
  have hwith : evalLoop (E := E) parse gt T (before ++ (imgName, pods) :: after) st =
      ((evalLoop (E := E) parse gt T after (evalLoop (E := E) parse gt T before st).1).1,
        (evalLoop (E := E) parse gt T before st).2 ++
          .logUnableToParseImage imgName ::
            (evalLoop (E := E) parse gt T after
              (evalLoop (E := E) parse gt T before st).1).2) := by
    rw [evalLoop_append]
    simp only [evalLoop, hstep, List.singleton_append]
  have hwithout := evalLoop_append (E := E) parse gt T before after st
  refine ⟨?_, ?_, ?_, ?_, hstep⟩
  · rw [hwith, hwithout]
  · rw [hwithout]
  · rw [hwith]
  · intro keep hk
    rw [hwith, hwithout]
    simp only [List.filter_append, List.filter_cons, hk]
    rfl

/-- C18: an image string that `parseImage` accepts with a digest has an empty
tag, and its step in the loop, whatever the version parser and the transport,
leaves the state as it was and the one line "Image:": no tag is coerced, no
call of `Get` or of the transport is made, no newer tag is reported. -/
theorem evalImage_digest_skipped {W H E V P : Type} (parse : Str → Except P V)
    (gt : V → V → Bool) (T : Transport W H E) (imgName : Str) (pods : List Pod)
    (st : LoopState W H) (img : imageName) (h : parseImage imgName = some img)
    (hd : img.digest ≠ []) :
    img.tag = [] ∧
    evalImage (E := E) parse gt T imgName pods st = (st, [.logImage img]) ∧
    (∀ e ∈ (evalImage (E := E) parse gt T imgName pods st).2,
      e.isTransportCall = false ∧ e.newerTag? = none) := by
  have ht : img.tag = [] := by
    rcases (parseImage_invariants imgName img h).2.2.2.2.2.2.1 with e | e
    · exact e
    · exact absurd e hd
  have hs := evalImage_of_tag_nil (E := E) parse gt T imgName pods st img h ht
  refine ⟨ht, hs, ?_⟩
  intro e he
  rw [hs] at he
  simp only [List.mem_singleton] at he
  rw [he]
  exact ⟨rfl, rfl⟩

/-- C17 on an inventory of three images, the second of which has four
segments. -/
theorem evalLoop_unparsable_isolated_witness :
    parseImage "a/b/c/d".toList = none ∧
    (evalLoop (E := Unit) Parse Version.GT flakyTransport
        ([("nginx:1.2.0".toList, [⟨"default".toList, "web".toList⟩])] ++
          ("a/b/c/d".toList, [⟨"default".toList, "odd".toList⟩]) ::
            [("quay.io/app:v1".toList, [])])
        ⟨registryCache.empty Str, 0⟩).1 =
      (evalLoop (E := Unit) Parse Version.GT flakyTransport
        ([("nginx:1.2.0".toList, [⟨"default".toList, "web".toList⟩])] ++
          [("quay.io/app:v1".toList, [])])
        ⟨registryCache.empty Str, 0⟩).1 :=
  ⟨by decide,
   (evalLoop_unparsable_isolated (E := Unit) Parse Version.GT flakyTransport
      [("nginx:1.2.0".toList, [⟨"default".toList, "web".toList⟩])]
      [("quay.io/app:v1".toList, [])]
      "a/b/c/d".toList [⟨"default".toList, "odd".toList⟩]
      ⟨registryCache.empty Str, 0⟩ (by decide)).1⟩

/-- C18 on `app@sha256:ab`: the step leaves the state as it was and the one
line "Image:". -/
theorem evalImage_digest_skipped_witness :
    parseImage "app@sha256:ab".toList =
      some { registry := [], namespace_ := "library".toList, repository := "app".toList,
             tag := [], digest := "sha256:ab".toList } ∧
    evalImage (E := Unit) Parse Version.GT flakyTransport "app@sha256:ab".toList
        [⟨"default".toList, "web".toList⟩] ⟨registryCache.empty Str, 0⟩ =
      (⟨registryCache.empty Str, 0⟩,
        [.logImage { registry := [], namespace_ := "library".toList,
                     repository := "app".toList, tag := [],
                     digest := "sha256:ab".toList }]) :=
  ⟨by decide,
   (evalImage_digest_skipped (E := Unit) Parse Version.GT flakyTransport
      "app@sha256:ab".toList [⟨"default".toList, "web".toList⟩] ⟨registryCache.empty Str, 0⟩
      { registry := [], namespace_ := "library".toList, repository := "app".toList,
        tag := [], digest := "sha256:ab".toList } (by decide) (by decide)).2.1⟩

/-- C12: whatever the version parser and the comparison, the "Newer tag
found" lines of the loop over the remote tags are, in order, the versions of
the tags that `tagSemVer` accepts and that are above the deployed version; a
version is reported exactly when some remote tag is coerced to it and it is
above the deployed one; and these are all the newer tags the step of the loop
reports for an image whose tags are listed. -/
theorem reportTags_newer {W H E V P : Type} (parse : Str → Except P V) (gt : V → V → Bool)
    (ver : V) (ts : List Str) :
    (reportTags (H := H) (E := E) parse gt ver ts).filterMap Event.newerTag? =
      ts.filterMap (fun t =>
        match tagSemVerWith parse t with
        | .ok tagv => if gt tagv ver then some tagv else none
        | .error _ => none) ∧
    (∀ v1 : V, v1 ∈ (reportTags (H := H) (E := E) parse gt ver ts).filterMap Event.newerTag? ↔
      ∃ t ∈ ts, tagSemVerWith parse t = .ok v1 ∧ gt v1 ver = true) ∧
    (∀ (T : Transport W H E) (imgName : Str) (pods : List Pod) (st : LoopState W H)
      (img : imageName) (hub : H) (w2 : W),
      parseImage imgName = some img → img.tag ≠ [] →
      tagSemVerWith parse img.tag = .ok ver →
      (registryCache.Get (V := V) (P := P) T st.cache st.world img.registry).result =
        .ok hub →
      T.Tags hub (img.namespace_ ++ ("/".toList ++ img.repository))
        (registryCache.Get (V := V) (P := P) T st.cache st.world img.registry).world =
          (.ok ts, w2) →
      (evalImage (E := E) parse gt T imgName pods st).2.filterMap Event.newerTag? =
        (reportTags (H := H) (E := E) parse gt ver ts).filterMap Event.newerTag?) := by
  have h1 := reportTags_newerTag (H := H) (E := E) parse gt ver ts
  refine ⟨h1, ?_, ?_⟩
  · intro v1
    rw [h1, List.mem_filterMap]
    constructor
    · rintro ⟨t, ht, he⟩
      refine ⟨t, ht, ?_⟩
      cases hp : tagSemVerWith parse t with
      | error err =>
        rw [hp] at he
        cases he
      | ok tagv =>
        rw [hp] at he
        by_cases hg : gt tagv ver = true
        · simp only [hg, if_true, Option.some.injEq] at he
          subst he
          exact ⟨rfl, hg⟩
        · simp only [hg, if_false] at he
          cases he
    · rintro ⟨t, ht, hp, hg⟩
      refine ⟨t, ht, ?_⟩
      simp only [hp, hg, if_true]
  · intro T imgName pods st img hub w2 h ht hv hg hl
    rw [evalImage_of_tags parse gt T imgName pods st img ver hub ts w2 h ht hv hg hl]
    simp only [List.filterMap_cons, Event.newerTag?, List.filterMap_append,
      Get_events_newerTag, usedBy_newerTag, List.nil_append, List.append_nil]

/-- C12 with `semver.Parse` and `GT`, the deployed version 1.2.0 and the
remote tags `1.1.0`, `1.2.0`, `1.3.0`, `v1.4`, `latest`: the versions reported
as newer are 1.3.0 and 1.4.0, in the loop over the tags and in the step of the
loop for the image `team/app:1.2.0`. -/
theorem reportTags_newer_witness :
    (reportTags (H := Str) (E := Unit) Parse Version.GT ⟨1, 2, 0, [], []⟩
        ["1.1.0".toList, "1.2.0".toList, "1.3.0".toList, "v1.4".toList,
          "latest".toList]).filterMap Event.newerTag? =
      [⟨1, 3, 0, [], []⟩, ⟨1, 4, 0, [], []⟩] ∧
    (evalImage (E := Unit) Parse Version.GT flakyTransport "team/app:1.2.0".toList
        [⟨"default".toList, "web".toList⟩]
        ⟨registryCache.empty Str, 1⟩).2.filterMap Event.newerTag? =
      [⟨1, 3, 0, [], []⟩, ⟨1, 4, 0, [], []⟩] := by
  have h1 : (reportTags (H := Str) (E := Unit) Parse Version.GT ⟨1, 2, 0, [], []⟩
        ["1.1.0".toList, "1.2.0".toList, "1.3.0".toList, "v1.4".toList,
          "latest".toList]).filterMap Event.newerTag? =
      [⟨1, 3, 0, [], []⟩, ⟨1, 4, 0, [], []⟩] := by
    rw [(reportTags_newer (W := Nat) (H := Str) (E := Unit) Parse Version.GT
      ⟨1, 2, 0, [], []⟩ ["1.1.0".toList, "1.2.0".toList, "1.3.0".toList, "v1.4".toList,
          "latest".toList]).1]
    simp only [List.filterMap_cons, List.filterMap_nil, tagSemVer_1_1_0, tagSemVer_1_2_0,
      tagSemVer_1_3_0, tagSemVer_v1_4, tagSemVer_latest]
    decide
  refine ⟨h1, ?_⟩
  rw [(reportTags_newer (W := Nat) (H := Str) (E := Unit) Parse Version.GT
      ⟨1, 2, 0, [], []⟩ ["1.1.0".toList, "1.2.0".toList, "1.3.0".toList, "v1.4".toList,
          "latest".toList]).2.2 flakyTransport "team/app:1.2.0".toList
      [⟨"default".toList, "web".toList⟩] ⟨registryCache.empty Str, 1⟩
      { registry := [], namespace_ := "team".toList, repository := "app".toList,
        tag := "1.2.0".toList, digest := [] }
      "https://registry-1.docker.io/".toList 2 (by decide) (by decide) tagSemVer_1_2_0 rfl rfl]
  exact h1

/-! ## Lemmas on the comparison of versions -/

theorem char_eq_of_toNat (x y : Char) (h1 : ¬ x.toNat < y.toNat) (h2 : ¬ y.toNat < x.toNat) :
    x = y := by
  apply Char.ext
  apply UInt32.ext
  have : x.toNat = y.toNat := by omega
  exact this

theorem ltStr_irrefl (a : Str) : ltStr a a = false := by
  induction a with
  | nil => rfl
  | cons x xs ih => simp [ltStr, ih]

theorem ltStr_total (a b : Str) (h : a ≠ b) : ltStr a b = true ∨ ltStr b a = true := by
  induction a generalizing b with
  | nil =>
    cases b with
    | nil => exact absurd rfl h
    | cons y ys => exact Or.inl rfl
  | cons x xs ih =>
    cases b with
    | nil => exact Or.inr rfl
    | cons y ys =>
      by_cases h1 : x.toNat < y.toNat
      · left
        simp [ltStr, h1]
      · by_cases h2 : y.toNat < x.toNat
        · right
          simp [ltStr, h2]
        · have hxy := char_eq_of_toNat x y h1 h2
          subst hxy
          have hne : xs ≠ ys := fun e => h (by rw [e])
          rcases ih ys hne with e | e
          · left
            simp [ltStr, e]
          · right
            simp [ltStr, e]

theorem ltStr_asymm (a b : Str) (h : ltStr a b = true) : ltStr b a = false := by
  induction a generalizing b with
  | nil =>
    cases b with
    | nil => rfl
    | cons y ys => rfl
  | cons x xs ih =>
    cases b with
    | nil => simp [ltStr] at h
    | cons y ys =>
      by_cases h1 : x.toNat < y.toNat
      · have h2 : ¬ y.toNat < x.toNat := by omega
        simp [ltStr, h1, h2]
      · by_cases h2 : y.toNat < x.toNat
        · simp [ltStr, h1, h2] at h
        · simp only [ltStr, h1, h2, if_false] at h ⊢
          exact ih ys h

theorem ltStr_trans (a b c : Str) (h1 : ltStr a b = true) (h2 : ltStr b c = true) :
    ltStr a c = true := by
  induction a generalizing b c with
  | nil =>
    cases b with
    | nil => simp [ltStr] at h1
    | cons y ys =>
      cases c with
      | nil => simp [ltStr] at h2
      | cons z zs => rfl
  | cons x xs ih =>
    cases b with
    | nil => simp [ltStr] at h1
    | cons y ys =>
      cases c with
      | nil => simp [ltStr] at h2
      | cons z zs =>
        simp only [ltStr] at h1 h2 ⊢
        by_cases a1 : x.toNat < y.toNat
        · by_cases b1 : y.toNat < z.toNat
          · have : x.toNat < z.toNat := by omega
            simp [this]
          · by_cases b2 : z.toNat < y.toNat
            · simp [b1, b2] at h2
            · have : x.toNat < z.toNat := by omega
              simp [this]
        · by_cases a2 : y.toNat < x.toNat
          · simp [a1, a2] at h1
          · simp only [a1, a2, if_false] at h1
            by_cases b1 : y.toNat < z.toNat
            · have : x.toNat < z.toNat := by omega
              simp [this]
            · by_cases b2 : z.toNat < y.toNat
              · simp [b1, b2] at h2
              · simp only [b1, b2, if_false] at h2
                have c1 : ¬ x.toNat < z.toNat := by omega
                have c2 : ¬ z.toNat < x.toNat := by omega
                simp only [c1, c2, if_false]
                exact ih ys zs h1 h2

/-- Derived law: arguments level on the right compare alike from the left. -/
theorem IsCmp.zero_right {α : Type} {cmp : α → α → Int} (h : IsCmp cmp) (x y z : α)
    (hz : cmp y z = 0) : cmp x y = cmp x z := by
  obtain ⟨-, ha, -, hl⟩ := h
  have h1 : cmp z y = 0 := by rw [ha y z, hz]; rfl
  have h2 := hl z y x h1
  rw [ha x z, ha x y] at h2
  omega

/-- The comparison of two numbers in `Compare`. -/
theorem isCmp_nat : IsCmp cmpNat := by
  unfold cmpNat
  refine ⟨?_, ?_, ?_, ?_⟩
  · intro x y
    by_cases h : x = y
    · simp [h]
    · by_cases h2 : x > y <;> simp [h, h2]
  · intro x y
    by_cases h : x = y
    · simp [h]
    · have h' : ¬ y = x := fun e => h e.symm
      by_cases h2 : x > y
      · have h3 : ¬ y > x := by omega
        simp [h, h', h2, h3]
      · have h3 : y > x := by omega
        simp [h, h', h2, h3]
  · intro x y z h1 h2
    simp only at h1 h2 ⊢
    split_ifs at h1 h2 ⊢ <;> first | rfl | omega
  · intro x y z h1
    simp only at h1 ⊢
    split_ifs at h1 ⊢ <;> first | rfl | omega

/-- The comparison of two words in `PRVersion.Compare`. -/
theorem isCmp_str : IsCmp cmpStr := by
  unfold cmpStr
  refine ⟨?_, ?_, ?_, ?_⟩
  · intro x y
    by_cases h : x = y
    · simp [h]
    · by_cases h2 : ltStr y x = true <;> simp [h, h2]
  · intro x y
    by_cases h : x = y
    · simp [h]
    · have h' : ¬ y = x := fun e => h e.symm
      by_cases h2 : ltStr y x = true
      · have h3 := ltStr_asymm y x h2
        simp [h, h', h2, h3]
      · have h3 : ltStr x y = true := by
          rcases ltStr_total x y h with e | e
          · exact e
          · exact absurd e h2
        simp [h, h', h2, h3]
  · intro x y z h1 h2
    simp only at h1 h2 ⊢
    have key : ∀ a b : Str, (if a = b then (0 : Int) else if ltStr b a then 1 else -1) = -1 →
        ltStr a b = true := by
      intro a b hab
      by_cases e : a = b
      · simp [e] at hab
      · by_cases e2 : ltStr b a = true
        · simp [e, e2] at hab
        · rcases ltStr_total a b e with e3 | e3
          · exact e3
          · exact absurd e3 e2
    have l1 := key x y h1
    have l2 := key y z h2
    have l3 := ltStr_trans x y z l1 l2
    have l4 := ltStr_asymm x z l3
    have hne : ¬ x = z := by
      intro e
      rw [e, ltStr_irrefl] at l3
      cases l3
    simp [hne, l4]
  · intro x y z h1
    simp only at h1 ⊢
    have e : x = y := by
      by_contra hne
      by_cases e2 : ltStr y x = true <;> simp [hne, e2] at h1
    rw [e]

/-- Two comparisons, the second one asked when the first one says level. -/
theorem isCmp_lex {α : Type} (c1 c2 : α → α → Int) (h1 : IsCmp c1) (h2 : IsCmp c2) :
    IsCmp (fun x y => if c1 x y ≠ 0 then c1 x y else c2 x y) := by
  have zr1 := h1.zero_right
  obtain ⟨v1, a1, t1, l1⟩ := h1
  obtain ⟨v2, a2, t2, l2⟩ := h2
  refine ⟨?_, ?_, ?_, ?_⟩
  · intro x y
    simp only
    have := v1 x y
    have := v2 x y
    split_ifs <;> omega
  · intro x y
    simp only
    have := a1 x y
    have := a2 x y
    split_ifs <;> omega
  · intro x y z hxy hyz
    simp only at hxy hyz ⊢
    have vxy := v1 x y
    have vyz := v1 y z
    by_cases e1 : c1 x y = 0
    · have := l1 x y z e1
      by_cases e2 : c1 y z = 0
      · have e3 : c1 x z = 0 := by omega
        simp only [e1, e2, e3, ne_eq, not_true_eq_false, if_false] at hxy hyz ⊢
        exact t2 x y z hxy hyz
      · simp only [e1, e2, ne_eq, not_true_eq_false, not_false_eq_true, if_false,
          if_true] at hxy hyz
        have e3 : c1 x z = -1 := by omega
        simp [e3]
    · simp only [e1, ne_eq, not_false_eq_true, if_true] at hxy
      by_cases e2 : c1 y z = 0
      · have := zr1 x y z e2
        have e3 : c1 x z = -1 := by omega
        simp [e3]
      · simp only [e2, ne_eq, not_false_eq_true, if_true] at hyz
        have e3 := t1 x y z hxy hyz
        simp [e3]
  · intro x y z hxy
    simp only at hxy ⊢
    have vxy := v1 x y
    by_cases e1 : c1 x y = 0
    · simp only [e1, ne_eq, not_true_eq_false, if_false] at hxy
      rw [l1 x y z e1, l2 x y z hxy]
    · simp only [e1, ne_eq, not_false_eq_true, if_true] at hxy

/-- A comparison of keys is a comparison of what has the keys. -/
theorem isCmp_comap {α β : Type} (f : β → α) (c : α → α → Int) (h : IsCmp c) :
    IsCmp (fun x y => c (f x) (f y)) := by
  obtain ⟨v, a, t, l⟩ := h
  exact ⟨fun x y => v _ _, fun x y => a _ _, fun x y z => t _ _ _, fun x y z => l _ _ _⟩

theorem PRVersion_Compare_eq (x y : PRVersion) :
    x.Compare y =
      if x.IsNum then (if y.IsNum then cmpNat x.VersionNum y.VersionNum else -1)
      else (if y.IsNum then 1 else cmpStr x.VersionStr y.VersionStr) := by
  unfold PRVersion.Compare cmpNat cmpStr
  cases x.IsNum <;> cases y.IsNum <;> simp

theorem isCmp_PRVersion : IsCmp PRVersion.Compare := by
  have zn := isCmp_nat
  have zs := isCmp_str
  obtain ⟨vn, an, tn, ln⟩ := zn
  obtain ⟨vs, as, ts, ls⟩ := zs
  refine ⟨?_, ?_, ?_, ?_⟩
  · intro x y
    rw [PRVersion_Compare_eq]
    have := vn x.VersionNum y.VersionNum
    have := vs x.VersionStr y.VersionStr
    split_ifs <;> omega
  · intro x y
    rw [PRVersion_Compare_eq, PRVersion_Compare_eq]
    have := an x.VersionNum y.VersionNum
    have := as x.VersionStr y.VersionStr
    split_ifs <;> omega
  · intro x y z hxy hyz
    rw [PRVersion_Compare_eq] at hxy hyz ⊢
    have := tn x.VersionNum y.VersionNum z.VersionNum
    have := ts x.VersionStr y.VersionStr z.VersionStr
    split_ifs at hxy hyz ⊢ <;> first | rfl | omega
  · intro x y z hxy
    rw [PRVersion_Compare_eq] at hxy ⊢
    rw [PRVersion_Compare_eq]
    have := ln x.VersionNum y.VersionNum z.VersionNum
    have := ls x.VersionStr y.VersionStr z.VersionStr
    split_ifs at hxy ⊢ <;> first | rfl | omega

theorem comparePre_cons (x y : PRVersion) (xs ys : List PRVersion) :
    comparePre (x :: xs) (y :: ys) =
      if x.Compare y ≠ 0 then x.Compare y else comparePre xs ys := by
  have := isCmp_PRVersion.1 x y
  simp only [comparePre]
  split_ifs <;> first | rfl | omega

theorem isCmp_comparePre : IsCmp comparePre := by
  obtain ⟨vp, ap, tp, lp⟩ := isCmp_PRVersion
  have zrp := isCmp_PRVersion.zero_right
  have vals : ∀ xs ys, comparePre xs ys = -1 ∨ comparePre xs ys = 0 ∨ comparePre xs ys = 1 := by
    intro xs
    induction xs with
    | nil =>
      intro ys
      cases ys <;> simp [comparePre]
    | cons x xs ih =>
      intro ys
      cases ys with
      | nil => simp [comparePre]
      | cons y ys =>
        rw [comparePre_cons]
        have := vp x y
        have := ih ys
        split_ifs <;> omega
  refine ⟨vals, ?_, ?_, ?_⟩
  · intro xs
    induction xs with
    | nil =>
      intro ys
      cases ys <;> simp [comparePre]
    | cons x xs ih =>
      intro ys
      cases ys with
      | nil => simp [comparePre]
      | cons y ys =>
        rw [comparePre_cons, comparePre_cons]
        have := ap x y
        have := ih ys
        split_ifs <;> omega
  · intro xs
    induction xs with
    | nil =>
      intro ys zs h1 h2
      cases ys with
      | nil => simp [comparePre] at h1
      | cons y ys =>
        cases zs with
        | nil => simp [comparePre] at h2
        | cons z zs => simp [comparePre]
    | cons x xs ih =>
      intro ys zs h1 h2
      cases ys with
      | nil => simp [comparePre] at h1
      | cons y ys =>
        cases zs with
        | nil => simp [comparePre] at h2
        | cons z zs =>
          rw [comparePre_cons] at h1 h2 ⊢
          have vxy := vp x y
          by_cases e1 : x.Compare y = 0
          · have := lp x y z e1
            by_cases e2 : y.Compare z = 0
            · have e3 : x.Compare z = 0 := by omega
              simp only [e1, e2, e3, ne_eq, not_true_eq_false, if_false] at h1 h2 ⊢
              exact ih ys zs h1 h2
            · simp only [e2, ne_eq, not_false_eq_true, if_true] at h2
              have e3 : x.Compare z = -1 := by omega
              simp [e3]
          · simp only [e1, ne_eq, not_false_eq_true, if_true] at h1
            by_cases e2 : y.Compare z = 0
            · have := zrp x y z e2
              have e3 : x.Compare z = -1 := by omega
              simp [e3]
            · simp only [e2, ne_eq, not_false_eq_true, if_true] at h2
              have e3 := tp x y z h1 h2
              simp [e3]
  · intro xs
    induction xs with
    | nil =>
      intro ys zs h1
      cases ys with
      | nil => rfl
      | cons y ys => simp [comparePre] at h1
    | cons x xs ih =>
      intro ys zs h1
      cases ys with
      | nil => simp [comparePre] at h1
      | cons y ys =>
        rw [comparePre_cons] at h1
        have vxy := vp x y
        by_cases e1 : x.Compare y = 0
        · simp only [e1, ne_eq, not_true_eq_false, if_false] at h1
          cases zs with
          | nil => simp [comparePre]
          | cons z zs =>
            rw [comparePre_cons, comparePre_cons, lp x y z e1, ih ys zs h1]
        · simp only [e1, ne_eq, not_false_eq_true, if_true] at h1

theorem isCmp_cmpPre : IsCmp cmpPre := by
  obtain ⟨vc, ac, tc, lc⟩ := isCmp_comparePre
  refine ⟨?_, ?_, ?_, ?_⟩
  · intro xs ys
    unfold cmpPre
    cases xs <;> cases ys <;> simp
    exact vc _ _
  · intro xs ys
    unfold cmpPre
    cases xs <;> cases ys <;> simp
    exact ac _ _
  · intro xs ys zs h1 h2
    unfold cmpPre at h1 h2 ⊢
    cases xs <;> cases ys <;> cases zs <;> simp at h1 h2 ⊢
    exact tc _ _ _ h1 h2
  · intro xs ys zs h1
    unfold cmpPre at h1 ⊢
    cases xs <;> cases ys <;> cases zs <;> simp at h1 ⊢
    exact lc _ _ _ h1

theorem Version_Compare_eq (v o : Version) :
    v.Compare o =
      if cmpNat v.Major o.Major ≠ 0 then cmpNat v.Major o.Major
      else if cmpNat v.Minor o.Minor ≠ 0 then cmpNat v.Minor o.Minor
      else if cmpNat v.Patch o.Patch ≠ 0 then cmpNat v.Patch o.Patch
      else cmpPre v.Pre o.Pre := by
  have self : ∀ a : Nat, cmpNat a a = 0 := fun a => by simp [cmpNat]
  have ne : ∀ a b : Nat, a ≠ b →
      cmpNat a b = (if a > b then (1 : Int) else -1) ∧ cmpNat a b ≠ 0 := by
    intro a b hab
    unfold cmpNat
    by_cases hgt : a > b <;> simp [hab, hgt]
  unfold Version.Compare
  by_cases h1 : v.Major = o.Major
  · by_cases h2 : v.Minor = o.Minor
    · by_cases h3 : v.Patch = o.Patch
      · simp only [h1, h2, h3, self, ne_eq, not_true_eq_false, if_false]
        rfl
      · obtain ⟨e1, e2⟩ := ne _ _ h3
        simp only [h1, h2, self, ne_eq, not_true_eq_false, if_false, h3, not_false_eq_true,
          if_true, e2]
        exact e1.symm
    · obtain ⟨e1, e2⟩ := ne _ _ h2
      simp only [h1, self, ne_eq, not_true_eq_false, if_false, h2, not_false_eq_true,
        if_true, e2]
      exact e1.symm
  · obtain ⟨e1, e2⟩ := ne _ _ h1
    simp only [ne_eq, h1, not_false_eq_true, if_true, e2]
    exact e1.symm

theorem isCmp_Version : IsCmp Version.Compare := by
  have h : Version.Compare = fun v o =>
      if cmpNat v.Major o.Major ≠ 0 then cmpNat v.Major o.Major
      else if cmpNat v.Minor o.Minor ≠ 0 then cmpNat v.Minor o.Minor
      else if cmpNat v.Patch o.Patch ≠ 0 then cmpNat v.Patch o.Patch
      else cmpPre v.Pre o.Pre := by
    funext v o
    exact Version_Compare_eq v o
  rw [h]
  exact isCmp_lex _ _ (isCmp_comap Version.Major cmpNat isCmp_nat)
    (isCmp_lex _ _ (isCmp_comap Version.Minor cmpNat isCmp_nat)
      (isCmp_lex _ _ (isCmp_comap Version.Patch cmpNat isCmp_nat)
        (isCmp_comap Version.Pre cmpPre isCmp_cmpPre)))

theorem cmpNat_eq_zero_iff (a b : Nat) : cmpNat a b = 0 ↔ a = b := by
  unfold cmpNat
  by_cases h : a = b
  · simp [h]
  · by_cases h2 : a > b <;> simp [h, h2]

theorem cmpStr_eq_zero_iff (a b : Str) : cmpStr a b = 0 ↔ a = b := by
  unfold cmpStr
  by_cases h : a = b
  · simp [h]
  · by_cases h2 : ltStr b a = true <;> simp [h, h2]

/-- A pre-release identifier as `NewPRVersion` builds it: a number carries no
word, a word carries the number 0. -/
theorem NewPRVersion_canonical (s : Str) (pr : PRVersion) (h : NewPRVersion s = .ok pr) :
    (pr.IsNum = true → pr.VersionStr = []) ∧ (pr.IsNum = false → pr.VersionNum = 0) := by
  unfold NewPRVersion at h
  by_cases h0 : s = []
  · simp [h0] at h
  · by_cases h1 : containsOnly s numbers = true
    · by_cases h2 : hasLeadingZeroes s = true
      · simp [h0, h1, h2] at h
      · cases hp : parseUint s with
        | none => simp [h0, h1, h2, hp] at h
        | some n =>
          simp only [h0, h1, h2, hp, if_true, if_false] at h
          cases h
          constructor
          · intro _
            rfl
          · intro e
            cases e
    · by_cases h3 : containsOnly s alphanum = true
      · simp only [h0, h1, h3, if_true, if_false] at h
        cases h
        constructor
        · intro e
          cases e
        · intro _
          rfl
      · simp [h0, h1, h3] at h

/-- Two identifiers built by `NewPRVersion` are level only when they are the
same. -/
theorem PRVersion_Compare_eq_zero_iff (x y : PRVersion)
    (hx : (x.IsNum = true → x.VersionStr = []) ∧ (x.IsNum = false → x.VersionNum = 0))
    (hy : (y.IsNum = true → y.VersionStr = []) ∧ (y.IsNum = false → y.VersionNum = 0)) :
    x.Compare y = 0 ↔ x = y := by
  rw [PRVersion_Compare_eq]
  obtain ⟨xs, xn, xb⟩ := x
  obtain ⟨ys, yn, yb⟩ := y
  cases xb <;> cases yb
  · have e1 := hx.2 rfl
    have e2 := hy.2 rfl
    simp only at e1 e2
    subst e1 e2
    simp [cmpStr_eq_zero_iff]
  · simp
  · simp
  · have e1 := hx.1 rfl
    have e2 := hy.1 rfl
    simp only at e1 e2
    subst e1 e2
    simp [cmpNat_eq_zero_iff]

theorem comparePre_eq_zero_iff (xs ys : List PRVersion)
    (hx : ∀ x ∈ xs, (x.IsNum = true → x.VersionStr = []) ∧ (x.IsNum = false → x.VersionNum = 0))
    (hy : ∀ y ∈ ys, (y.IsNum = true → y.VersionStr = []) ∧ (y.IsNum = false → y.VersionNum = 0)) :
    comparePre xs ys = 0 ↔ xs = ys := by
  induction xs generalizing ys with
  | nil =>
    cases ys <;> simp [comparePre]
  | cons x xs ih =>
    cases ys with
    | nil => simp [comparePre]
    | cons y ys =>
      rw [comparePre_cons]
      have hxy := PRVersion_Compare_eq_zero_iff x y (hx x (by simp)) (hy y (by simp))
      have ih2 := ih ys (fun a ha => hx a (by simp [ha])) (fun a ha => hy a (by simp [ha]))
      by_cases e : x.Compare y = 0
      · have exy := hxy.mp e
        subst exy
        simp only [e, ne_eq, not_true_eq_false, if_false, ih2, List.cons.injEq, true_and]
      · have hne : ¬ x = y := fun h => e (hxy.mpr h)
        simp [e, hne]

theorem cmpPre_eq_zero_iff (xs ys : List PRVersion)
    (hx : ∀ x ∈ xs, (x.IsNum = true → x.VersionStr = []) ∧ (x.IsNum = false → x.VersionNum = 0))
    (hy : ∀ y ∈ ys, (y.IsNum = true → y.VersionStr = []) ∧ (y.IsNum = false → y.VersionNum = 0)) :
    cmpPre xs ys = 0 ↔ xs = ys := by
  cases xs with
  | nil => cases ys <;> simp [cmpPre]
  | cons x xs =>
    cases ys with
    | nil => simp [cmpPre]
    | cons y ys =>
      have := comparePre_eq_zero_iff (x :: xs) (y :: ys) hx hy
      simpa [cmpPre] using this

/-- When two versions are level: the numbers agree and so do the pre-release
parts, as far as `Compare` reads them. -/
theorem Version_Compare_eq_zero_iff (v o : Version) :
    v.Compare o = 0 ↔
      (v.Major = o.Major ∧ v.Minor = o.Minor ∧ v.Patch = o.Patch ∧ cmpPre v.Pre o.Pre = 0) := by
  rw [Version_Compare_eq]
  have h1 := cmpNat_eq_zero_iff v.Major o.Major
  have h2 := cmpNat_eq_zero_iff v.Minor o.Minor
  have h3 := cmpNat_eq_zero_iff v.Patch o.Patch
  split_ifs with c1 c2 c3
  · constructor
    · intro e
      exact absurd e c1
    · rintro ⟨e, -⟩
      exact absurd (h1.mpr e) c1
  · constructor
    · intro e
      exact absurd e c2
    · rintro ⟨-, e, -⟩
      exact absurd (h2.mpr e) c2
  · constructor
    · intro e
      exact absurd e c3
    · rintro ⟨-, -, e, -⟩
      exact absurd (h3.mpr e) c3
  · simp only [ne_eq, not_not] at c1 c2 c3
    constructor
    · intro e
      exact ⟨h1.mp c1, h2.mp c2, h3.mp c3, e⟩
    · rintro ⟨-, -, -, e⟩
      exact e

theorem Parse_ok_pre (s : Str) (v : Version) (h : Parse s = .ok v) :
    ∃ l : List Str, l.mapM NewPRVersion = .ok v.Pre := by
  unfold Parse at h
  split_ifs at h
  split at h
  · simp only [bind, Except.bind, pure, Except.pure] at h
    split at h
    · cases h
    · split at h
      · cases h
      · split at h
        · cases h
        · split at h
          · cases h
          · rename_i hpre
            split at h
            · cases h
            · cases h
              exact ⟨_, hpre⟩
  · cases h

theorem mapM_ok_mem {α β ε : Type} (f : α → Except ε β) (l : List α) (l2 : List β)
    (h : l.mapM f = .ok l2) : ∀ y ∈ l2, ∃ x ∈ l, f x = .ok y := by
  induction l generalizing l2 with
  | nil =>
    simp only [List.mapM_nil, pure, Except.pure] at h
    cases h
    intro y hy
    simp at hy
  | cons a as ih =>
    simp only [List.mapM_cons, bind, Except.bind, pure, Except.pure] at h
    split at h
    · cases h
    · rename_i b hb
      split at h
      · cases h
      · rename_i bs hbs
        cases h
        intro y hy
        rcases List.mem_cons.mp hy with e | e
        · exact ⟨a, by simp, by rw [e]; exact hb⟩
        · obtain ⟨x, hx, hfx⟩ := ih bs hbs y e
          exact ⟨x, by simp [hx], hfx⟩

/-- The pre-release identifiers of a parsed version are as `NewPRVersion`
builds them. -/
theorem Parse_pre_canonical (s : Str) (v : Version) (h : Parse s = .ok v) :
    ∀ x ∈ v.Pre, (x.IsNum = true → x.VersionStr = []) ∧ (x.IsNum = false → x.VersionNum = 0) := by
  obtain ⟨l, hl⟩ := Parse_ok_pre s v h
  intro x hx
  obtain ⟨id, -, hid⟩ := mapM_ok_mem NewPRVersion l v.Pre hl x hx
  exact NewPRVersion_canonical id x hid

/-! ## The claim on the order of versions -/

/-- Two versions returned by `tagSemVer` are level for `Compare` exactly when
they have the same major, minor, patch and pre-release. -/
theorem tagSemVer_Compare_eq_zero_iff (s t : Str) (a b : Version)
    (ha : tagSemVer s = .ok a) (hb : tagSemVer t = .ok b) :
    a.Compare b = 0 ↔
      (a.Major = b.Major ∧ a.Minor = b.Minor ∧ a.Patch = b.Patch ∧ a.Pre = b.Pre) := by
  unfold tagSemVer tagSemVerWith at ha hb
  have ca := Parse_pre_canonical _ a ha
  have cb := Parse_pre_canonical _ b hb
  rw [Version_Compare_eq_zero_iff, cmpPre_eq_zero_iff a.Pre b.Pre ca cb]

/-- C11, as amended: for versions `a`, `b` returned by `tagSemVer` and any
version `c`, exactly one of these holds: `a` is below `b` (`LT`), `a` and `b`
have the same major, minor, patch and pre-release, `a` is above `b` (`GT`).
Build identifiers are not compared; when `a` and `b` have the same build
identifiers, the middle case is `a = b`.  `a.GT(b)` is `b.LT(a)`, no version
is below itself, and `LT` and `GT` are transitive. -/
theorem Version_strict_total_order (s t : Str) (a b c : Version)
    (ha : tagSemVer s = .ok a) (hb : tagSemVer t = .ok b) :
    ((a.LT b = true ∧
        ¬ (a.Major = b.Major ∧ a.Minor = b.Minor ∧ a.Patch = b.Patch ∧ a.Pre = b.Pre) ∧
        a.GT b = false) ∨
      (a.LT b = false ∧
        (a.Major = b.Major ∧ a.Minor = b.Minor ∧ a.Patch = b.Patch ∧ a.Pre = b.Pre) ∧
        a.GT b = false) ∨
      (a.LT b = false ∧
        ¬ (a.Major = b.Major ∧ a.Minor = b.Minor ∧ a.Patch = b.Patch ∧ a.Pre = b.Pre) ∧
        a.GT b = true)) ∧
    (a.Build = b.Build →
      ((a.LT b = true ∧ a ≠ b ∧ a.GT b = false) ∨
        (a.LT b = false ∧ a = b ∧ a.GT b = false) ∨
        (a.LT b = false ∧ a ≠ b ∧ a.GT b = true))) ∧
    a.GT b = b.LT a ∧
    a.LT a = false ∧
    (a.LT b = true → b.LT c = true → a.LT c = true) ∧
    (a.GT b = true → b.GT c = true → a.GT c = true) := by
  obtain ⟨vals, anti, trans, -⟩ := isCmp_Version
  have hz := tagSemVer_Compare_eq_zero_iff s t a b ha hb
  have tri : (a.LT b = true ∧
        ¬ (a.Major = b.Major ∧ a.Minor = b.Minor ∧ a.Patch = b.Patch ∧ a.Pre = b.Pre) ∧
        a.GT b = false) ∨
      (a.LT b = false ∧
        (a.Major = b.Major ∧ a.Minor = b.Minor ∧ a.Patch = b.Patch ∧ a.Pre = b.Pre) ∧
        a.GT b = false) ∨
      (a.LT b = false ∧
        ¬ (a.Major = b.Major ∧ a.Minor = b.Minor ∧ a.Patch = b.Patch ∧ a.Pre = b.Pre) ∧
        a.GT b = true) := by
    unfold Version.LT Version.GT
    rcases vals a b with e | e | e
    · have hn : ¬ a.Compare b = 0 := by omega
      left
      exact ⟨by simp [e], fun h => hn (hz.mpr h), by simp [e]⟩
    · right
      left
      exact ⟨by simp [e], hz.mp e, by simp [e]⟩
    · have hn : ¬ a.Compare b = 0 := by omega
      right
      right
      exact ⟨by simp [e], fun h => hn (hz.mpr h), by simp [e]⟩
  refine ⟨tri, ?_, ?_, ?_, ?_, ?_⟩
  · intro hbuild
    have hsame : (a.Major = b.Major ∧ a.Minor = b.Minor ∧ a.Patch = b.Patch ∧
        a.Pre = b.Pre) ↔ a = b := by
      constructor
      · rintro ⟨e1, e2, e3, e4⟩
        obtain ⟨a1, a2, a3, a4, a5⟩ := a
        obtain ⟨b1, b2, b3, b4, b5⟩ := b
        simp only at e1 e2 e3 e4 hbuild
        subst e1 e2 e3 e4 hbuild
        rfl
      · intro e
        subst e
        exact ⟨rfl, rfl, rfl, rfl⟩
    rcases tri with ⟨k1, k2, k3⟩ | ⟨k1, k2, k3⟩ | ⟨k1, k2, k3⟩
    · exact Or.inl ⟨k1, fun e => k2 (hsame.mpr e), k3⟩
    · exact Or.inr (Or.inl ⟨k1, hsame.mp k2, k3⟩)
    · exact Or.inr (Or.inr ⟨k1, fun e => k2 (hsame.mpr e), k3⟩)
  · unfold Version.LT Version.GT
    have := anti a b
    by_cases e : a.Compare b = 1
    · have e2 : b.Compare a = -1 := by omega
      simp [e, e2]
    · have e2 : ¬ b.Compare a = -1 := by omega
      simp [e, e2]
  · unfold Version.LT
    have := anti a a
    have e : ¬ a.Compare a = -1 := by omega
    simp [e]
  · unfold Version.LT
    intro h1 h2
    simp only [decide_eq_true_eq] at h1 h2 ⊢
    exact trans a b c h1 h2
  · unfold Version.GT
    intro h1 h2
    simp only [decide_eq_true_eq] at h1 h2 ⊢
    have a1 := anti a b
    have a2 := anti b c
    have a3 := anti a c
    have := trans c b a (by omega) (by omega)
    omega

/-- C11 on the versions of the tags `1.2.0` and `v1.4` and on version 1.5.0:
the first is below the second and differs from it, the second is below the
third, and so the first is below the third. -/
theorem Version_strict_total_order_witness :
    tagSemVer "1.2.0".toList = .ok ⟨1, 2, 0, [], []⟩ ∧
    tagSemVer "v1.4".toList = .ok ⟨1, 4, 0, [], []⟩ ∧
    Version.LT ⟨1, 2, 0, [], []⟩ ⟨1, 4, 0, [], []⟩ = true ∧
    Version.LT ⟨1, 4, 0, [], []⟩ ⟨1, 5, 0, [], []⟩ = true ∧
    Version.LT ⟨1, 2, 0, [], []⟩ ⟨1, 5, 0, [], []⟩ = true ∧
    Version.GT ⟨1, 2, 0, [], []⟩ ⟨1, 4, 0, [], []⟩ =
      Version.LT ⟨1, 4, 0, [], []⟩ ⟨1, 2, 0, [], []⟩ :=
  ⟨tagSemVer_1_2_0, tagSemVer_v1_4, by decide, by decide,
   (Version_strict_total_order "1.2.0".toList "v1.4".toList ⟨1, 2, 0, [], []⟩
      ⟨1, 4, 0, [], []⟩ ⟨1, 5, 0, [], []⟩ tagSemVer_1_2_0 tagSemVer_v1_4).2.2.2.2.1
      (by decide) (by decide),
   (Version_strict_total_order "1.2.0".toList "v1.4".toList ⟨1, 2, 0, [], []⟩
      ⟨1, 4, 0, [], []⟩ ⟨1, 5, 0, [], []⟩ tagSemVer_1_2_0 tagSemVer_v1_4).2.2.1⟩

/-- C11, counterexample: the tags `1.0.0+a` and `1.0.0+b` are coerced to two
different versions (they differ in their build identifiers), and neither is
below or above the other. -/
theorem Version_strict_total_order_counterexample :
    tagSemVer "1.0.0+a".toList = .ok ⟨1, 0, 0, [], ["a".toList]⟩ ∧
    tagSemVer "1.0.0+b".toList = .ok ⟨1, 0, 0, [], ["b".toList]⟩ ∧
    (⟨1, 0, 0, [], ["a".toList]⟩ : Version) ≠ ⟨1, 0, 0, [], ["b".toList]⟩ ∧
    Version.LT ⟨1, 0, 0, [], ["a".toList]⟩ ⟨1, 0, 0, [], ["b".toList]⟩ = false ∧
    Version.GT ⟨1, 0, 0, [], ["a".toList]⟩ ⟨1, 0, 0, [], ["b".toList]⟩ = false := by
  refine ⟨?_, ?_, by decide, by decide, by decide⟩
  · unfold tagSemVer
    rw [tagSemVerWith_eq Parse _ "1.0.0+a".toList "1.0.0+a".toList (by decide)
      (padZeros_of_not_lt _ (by decide))]
    decide
  · unfold tagSemVer
    rw [tagSemVerWith_eq Parse _ "1.0.0+b".toList "1.0.0+b".toList (by decide)
      (padZeros_of_not_lt _ (by decide))]
    decide

/-! ## Lemmas on parsing well-formed version strings -/

theorem containsOnly_iff (s set : Str) : containsOnly s set = true ↔ ∀ c ∈ s, c ∈ set := by
  simp [containsOnly]

theorem parseUint_of_digits (s : Str) (n : Nat) (h1 : s ≠ [])
    (h4 : parseDigits 0 s = some n) (h5 : n < 2 ^ 64) : parseUint s = some n := by
  unfold parseUint
  rw [if_neg h1, h4]
  simp only
  rw [if_pos h5]

theorem parseNumber_of_numeric (field : Field) (s : Str) (n : Nat)
    (h : NumericComponent s n) : parseNumber field s = .ok n := by
  obtain ⟨h1, h2, h3, h4, h5⟩ := h
  have hc : containsOnly s numbers = true := (containsOnly_iff s numbers).mpr h2
  simp [parseNumber, hc, h3, parseUint_of_digits s n h1 h4 h5]

theorem numbers_subset_alphanum (c : Char) (h : c ∈ numbers) : c ∈ alphanum := by
  unfold alphanum
  exact List.mem_append_right _ h

theorem NewPRVersion_of_ident (s : Str) (pr : PRVersion) (h : PrereleaseIdent s pr) :
    NewPRVersion s = .ok pr := by
  obtain ⟨h1, h2, h3⟩ := h
  rcases h3 with ⟨k1, k2, n, k3, k4, k5⟩ | ⟨k1, k2⟩
  · have hc : containsOnly s numbers = true := (containsOnly_iff s numbers).mpr k1
    simp [NewPRVersion, h1, hc, k2, parseUint_of_digits s n h1 k3 k4, k5]
  · have hc : ¬ containsOnly s numbers = true := fun e => k1 ((containsOnly_iff s numbers).mp e)
    have hc2 : containsOnly s alphanum = true := (containsOnly_iff s alphanum).mpr h2
    simp [NewPRVersion, h1, hc, hc2, k2]

theorem mapM_NewPRVersion_of_idents (ids : List Str) (prs : List PRVersion)
    (h : List.Forall₂ PrereleaseIdent ids prs) : ids.mapM NewPRVersion = .ok prs := by
  induction h with
  | nil => rfl
  | cons hd _ ih =>
    simp only [List.mapM_cons, NewPRVersion_of_ident _ _ hd, ih, bind, Except.bind, pure,
      Except.pure]

theorem not_mem_numbers_special (c : Char) (h : c ∈ numbers) :
    c ≠ '.' ∧ c ≠ '+' ∧ c ≠ '-' ∧ c ≠ 'v' := by
  refine ⟨?_, ?_, ?_, ?_⟩ <;>
  · intro e
    subst e
    revert h
    decide

theorem not_mem_alphanum_special (c : Char) (h : c ∈ alphanum) : c ≠ '.' ∧ c ≠ '+' := by
  refine ⟨?_, ?_⟩ <;>
  · intro e
    subst e
    revert h
    decide

theorem mem_intercalate (sep : Char) (l : List Str) (c : Char)
    (h : c ∈ List.intercalate [sep] l) : c = sep ∨ ∃ x ∈ l, c ∈ x := by
  induction l with
  | nil => simp [List.intercalate] at h
  | cons x xs ih =>
    cases xs with
    | nil =>
      simp [List.intercalate] at h
      exact Or.inr ⟨x, by simp, h⟩
    | cons y ys =>
      have e : List.intercalate [sep] (x :: y :: ys) =
          x ++ sep :: List.intercalate [sep] (y :: ys) := by
        simp [List.intercalate]
      rw [e, List.mem_append, List.mem_cons] at h
      rcases h with h | h | h
      · exact Or.inr ⟨x, by simp, h⟩
      · exact Or.inl h
      · rcases ih h with e2 | ⟨z, hz, hc⟩
        · exact Or.inl e2
        · exact Or.inr ⟨z, by simp [hz], hc⟩

/-- Splitting what was joined gives the pieces back, when no piece holds the
separator. -/
theorem split_intercalate (sep : Char) (l : List Str) (hne : l ≠ [])
    (h : ∀ x ∈ l, sep ∉ x) : split sep (List.intercalate [sep] l) = l := by
  induction l with
  | nil => exact absurd rfl hne
  | cons x xs ih =>
    cases xs with
    | nil =>
      have e : List.intercalate [sep] [x] = x := by simp [List.intercalate]
      rw [e]
      exact split_of_not_mem sep x (h x (by simp))
    | cons y ys =>
      have e : List.intercalate [sep] (x :: y :: ys) =
          x ++ sep :: List.intercalate [sep] (y :: ys) := by
        simp [List.intercalate]
      rw [e, split_append_cons sep x _ (h x (by simp)),
        ih (by simp) (fun z hz => h z (by simp [hz]))]

theorem splitN_three_of (sep : Char) (a b rest : Str) (ha : sep ∉ a) (hb : sep ∉ b) :
    splitN sep 3 (a ++ sep :: (b ++ sep :: rest)) = [a, b, rest] := by
  have i1 := index_append_cons sep a (b ++ sep :: rest) ha
  have i2 := index_append_cons sep b rest hb
  simp [splitN, i1, i2]

theorem take_append_cons (a b : Str) (c : Char) : (a ++ c :: b).take a.length = a := by
  simp

theorem drop_append_cons (a b : Str) (c : Char) : (a ++ c :: b).drop (a.length + 1) = b := by
  induction a with
  | nil => simp
  | cons x xs ih => simp

theorem forall₂_mem_left {α β : Type} {R : α → β → Prop} {l1 : List α} {l2 : List β}
    (h : List.Forall₂ R l1 l2) : ∀ x ∈ l1, ∃ y ∈ l2, R x y := by
  induction h with
  | nil =>
    intro x hx
    simp at hx
  | cons hd _ ih =>
    intro x hx
    rcases List.mem_cons.mp hx with e | e
    · subst e
      exact ⟨_, by simp, hd⟩
    · obtain ⟨y, hy, hr⟩ := ih x e
      exact ⟨y, by simp [hy], hr⟩

/-- What `semver.Parse` makes of three numeric components followed by `-` and
pre-release identifiers joined by dots. -/
theorem Parse_prerelease (a b c : Str) (na nb nc : Nat) (ids : List Str)
    (prs : List PRVersion) (ha : NumericComponent a na) (hb : NumericComponent b nb)
    (hc : NumericComponent c nc) (hne : ids ≠ [])
    (hids : List.Forall₂ PrereleaseIdent ids prs) :
    Parse (a ++ '.' :: (b ++ '.' :: (c ++ '-' :: List.intercalate ['.'] ids))) =
      .ok { Major := na, Minor := nb, Patch := nc, Pre := prs, Build := [] } := by
  have da : '.' ∉ a := fun h => (not_mem_numbers_special _ (ha.2.1 _ h)).1 rfl
  have db : '.' ∉ b := fun h => (not_mem_numbers_special _ (hb.2.1 _ h)).1 rfl
  have hsplit := splitN_three_of '.' a b (c ++ '-' :: List.intercalate ['.'] ids) da db
  have hw : ¬ (a ++ '.' :: (b ++ '.' :: (c ++ '-' :: List.intercalate ['.'] ids))) = [] := by
    simp
  have hidc : ∀ x ∈ ids, ∀ ch ∈ x, ch ∈ alphanum := by
    intro x hx
    obtain ⟨pr, -, hp⟩ := forall₂_mem_left hids x hx
    exact hp.2.1
  have hplus : index '+' (c ++ '-' :: List.intercalate ['.'] ids) = none := by
    rw [index_eq_none_iff]
    intro h
    rw [List.mem_append, List.mem_cons] at h
    rcases h with h | h | h
    · exact (not_mem_numbers_special _ (hc.2.1 _ h)).2.1 rfl
    · cases h
    · rcases mem_intercalate '.' ids '+' h with e | ⟨x, hx, hch⟩
      · cases e
      · exact (not_mem_alphanum_special _ (hidc x hx _ hch)).2 rfl
  have dc : '-' ∉ c := fun h => (not_mem_numbers_special _ (hc.2.1 _ h)).2.2.1 rfl
  have hminus := index_append_cons '-' c (List.intercalate ['.'] ids) dc
  have hsp : split '.' (List.intercalate ['.'] ids) = ids :=
    split_intercalate '.' ids hne
      (fun x hx h => (not_mem_alphanum_special _ (hidc x hx _ h)).1 rfl)
  unfold Parse
  rw [if_neg hw, hsplit]
  simp only [bind, Except.bind, pure, Except.pure, parseNumber_of_numeric _ _ _ ha,
    parseNumber_of_numeric _ _ _ hb, hplus, hminus, take_append_cons, drop_append_cons, hsp,
    parseNumber_of_numeric _ _ _ hc, mapM_NewPRVersion_of_idents ids prs hids, List.mapM_nil]

/-! ## Writing a number out and reading it back -/

theorem digit_facts (c : Char) (h : c ∈ numbers) :
    c.toNat - 48 < 10 ∧ Char.ofNat (48 + (c.toNat - 48)) = c ∧
      (c ≠ '0' → c.toNat - 48 ≠ 0) := by
  have hc : c = '0' ∨ c = '1' ∨ c = '2' ∨ c = '3' ∨ c = '4' ∨ c = '5' ∨ c = '6' ∨ c = '7' ∨
      c = '8' ∨ c = '9' := by
    simpa [numbers] using h
  rcases hc with e | e | e | e | e | e | e | e | e | e <;> subst e <;> decide

theorem digitValue_of_mem (c : Char) (h : c ∈ numbers) : digitValue c = some (c.toNat - 48) := by
  simp [digitValue, h]

/-- The value `parseDigits` reads, in terms of `Nat.ofDigits`. -/
theorem parseDigits_eq (s : Str) (acc : Nat) (h : ∀ c ∈ s, c ∈ numbers) :
    parseDigits acc s =
      some (acc * 10 ^ s.length +
        Nat.ofDigits 10 (s.map (fun c => c.toNat - 48)).reverse) := by
  induction s generalizing acc with
  | nil => simp [parseDigits]
  | cons c cs ih =>
    have hc := digitValue_of_mem c (h c (by simp))
    simp only [parseDigits, hc]
    rw [ih _ (fun x hx => h x (by simp [hx]))]
    simp only [List.map_cons, List.reverse_cons, Nat.ofDigits_append, Nat.ofDigits_singleton,
      List.length_reverse, List.length_map, List.length_cons, Option.some.injEq]
    ring

/-- A number written without leading zero is written out again as it was. -/
theorem formatUint_parseDigits (s : Str) (n : Nat) (h1 : s ≠ [])
    (h2 : ∀ c ∈ s, c ∈ numbers) (h3 : hasLeadingZeroes s = false)
    (h4 : parseDigits 0 s = some n) : formatUint n = s := by
  rw [parseDigits_eq s 0 h2] at h4
  simp only [zero_mul, zero_add, Option.some.injEq] at h4
  cases s with
  | nil => exact absurd rfl h1
  | cons c cs =>
    by_cases hz : c = '0'
    · -- a leading `0` stands alone
      subst hz
      cases cs with
      | nil =>
        subst h4
        decide
      | cons d ds => simp [hasLeadingZeroes] at h3
    · have hlt : ∀ l ∈ ((c :: cs).map (fun c => c.toNat - 48)).reverse, l < 10 := by
        intro l hl
        simp only [List.mem_reverse, List.mem_map] at hl
        obtain ⟨x, hx, rfl⟩ := hl
        exact (digit_facts x (h2 x hx)).1
      have hlast : ∀ hne : ((c :: cs).map (fun c => c.toNat - 48)).reverse ≠ [],
          (((c :: cs).map (fun c => c.toNat - 48)).reverse).getLast hne ≠ 0 := by
        intro hne
        simp only [List.map_cons, List.reverse_cons, List.getLast_append_singleton]
        exact (digit_facts c (h2 c (by simp))).2.2 hz
      have hd := Nat.digits_ofDigits 10 (by norm_num) _ hlt hlast
      rw [h4] at hd
      have hn : n ≠ 0 := by
        intro e
        rw [e] at hd
        simp at hd
      unfold formatUint
      rw [if_neg hn, hd, List.reverse_reverse, List.map_map]
      have hid : ∀ x ∈ (c :: cs),
          ((fun d => Char.ofNat (48 + d)) ∘ fun c => c.toNat - 48) x = x := by
        intro x hx
        exact (digit_facts x (h2 x hx)).2.1
      calc List.map ((fun d => Char.ofNat (48 + d)) ∘ fun c => c.toNat - 48) (c :: cs)
          = List.map id (c :: cs) := List.map_congr_left hid
        _ = c :: cs := List.map_id _

/-- A pre-release identifier is written out again as it was. -/
theorem PRVersion_String_of_ident (s : Str) (pr : PRVersion) (h : PrereleaseIdent s pr) :
    pr.String = s := by
  obtain ⟨h1, -, h3⟩ := h
  rcases h3 with ⟨k1, k2, n, k3, -, k5⟩ | ⟨-, k2⟩
  · rw [k5]
    simp only [PRVersion.String, if_true]
    exact formatUint_parseDigits s n h1 k1 k2 k3
  · rw [k2]
    simp [PRVersion.String]

theorem map_String_of_idents (ids : List Str) (prs : List PRVersion)
    (h : List.Forall₂ PrereleaseIdent ids prs) : prs.map PRVersion.String = ids := by
  induction h with
  | nil => rfl
  | cons hd _ ih =>
    simp only [List.map_cons, PRVersion_String_of_ident _ _ hd, ih]

/-! ## Lemmas on tags with a suffix after fewer than three numbers -/

theorem head_split_append_cons_ne (sep c : Char) (a y : Str) (ha : sep ∉ a) (hc : c ≠ sep) :
    (split sep (a ++ c :: y)).headD [] = a ++ c :: (split sep y).headD [] := by
  induction a with
  | nil => simp [split, hc]
  | cons x xs ih =>
    have hx : ¬ x = sep := fun e => ha (by simp [e])
    have hxs : sep ∉ xs := fun e => ha (by simp [e])
    simp only [List.cons_append, split, hx, if_false, List.headD_cons]
    exact congrArg (List.cons x) (ih hxs)

/-- The padding loop only appends. -/
theorem padZeros_eq_append (u : Str) : ∃ pad, padZeros u = u ++ pad := by
  generalize hn : 2 - count '.' u = n
  induction n generalizing u with
  | zero =>
    have h : ¬ count '.' u < 2 := by omega
    exact ⟨[], by rw [padZeros_of_not_lt u h, List.append_nil]⟩
  | succ k ih =>
    have h : count '.' u < 2 := by omega
    have hc := count_append_dot_zero u
    obtain ⟨pad, hp⟩ := ih (u ++ ".0".toList) (by omega)
    exact ⟨".0".toList ++ pad, by rw [padZeros_of_lt u h, hp, List.append_assoc]⟩

theorem Parse_error_of_minor (w p0 p1 p2 : Str) (hs : splitN '.' 3 w = [p0, p1, p2])
    (h : ¬ ∀ c ∈ p1, c ∈ numbers) : ∃ e, Parse w = .error e := by
  have hc : containsOnly p1 numbers = false := by
    cases hb : containsOnly p1 numbers with
    | false => rfl
    | true => exact absurd ((containsOnly_iff p1 numbers).mp hb) h
  unfold Parse
  by_cases hw : w = []
  · simp [hw]
  · simp only [hw, if_false, hs, bind, Except.bind]
    cases parseNumber Field.major p0 with
    | error e => exact ⟨e, rfl⟩
    | ok major =>
      simp only [parseNumber, hc, Bool.not_false, if_true]
      exact ⟨_, rfl⟩

/-- A tag of one number and a suffix after `-` is refused: its first
component holds the `-`. -/
theorem tagSemVerWith_one_component (t a rest : Str) (ha : ∀ c ∈ a, c ∈ numbers)
    (ht : trimPrefix 'v' t = a ++ '-' :: rest) : ∃ e, tagSemVerWith Parse t = .error e := by
  unfold tagSemVerWith
  rw [ht]
  obtain ⟨h1, h2⟩ := padZeros_spec (a ++ '-' :: rest)
  apply Parse_error_of_major _ h1
  rw [h2]
  have da : '.' ∉ a := fun h => (not_mem_numbers_special _ (ha _ h)).1 rfl
  rw [head_split_append_cons_ne '.' '-' a rest da (by decide)]
  rintro ⟨-, hall⟩
  have := hall '-' (by simp)
  revert this
  decide

/-- A tag of two numbers and a suffix after `-` is refused: its second
component holds the `-`. -/
theorem tagSemVerWith_two_components (t a b rest : Str) (ha : ∀ c ∈ a, c ∈ numbers)
    (hb : ∀ c ∈ b, c ∈ numbers)
    (ht : trimPrefix 'v' t = a ++ '.' :: (b ++ '-' :: rest)) :
    ∃ e, tagSemVerWith Parse t = .error e := by
  unfold tagSemVerWith
  rw [ht]
  obtain ⟨h1, -⟩ := padZeros_spec (a ++ '.' :: (b ++ '-' :: rest))
  obtain ⟨pad, hp⟩ := padZeros_eq_append (a ++ '.' :: (b ++ '-' :: rest))
  have hp2 : padZeros (a ++ '.' :: (b ++ '-' :: rest)) =
      a ++ '.' :: (b ++ '-' :: (rest ++ pad)) := by
    rw [hp]
    simp
  rw [hp2] at h1 ⊢
  have da : '.' ∉ a := fun h => (not_mem_numbers_special _ (ha _ h)).1 rfl
  have db : '.' ∉ b := fun h => (not_mem_numbers_special _ (hb _ h)).1 rfl
  have hz : count '.' a = 0 := by
    unfold count
    exact List.count_eq_zero.mpr da
  have hcount : 1 ≤ count '.' (b ++ '-' :: (rest ++ pad)) := by
    have hc : count '.' (a ++ '.' :: (b ++ '-' :: (rest ++ pad))) =
        count '.' a + (1 + count '.' (b ++ '-' :: (rest ++ pad))) := by
      unfold count
      rw [List.count_append, List.count_cons_self]
      omega
    omega
  have hm : '.' ∈ b ++ '-' :: (rest ++ pad) := by
    unfold count at hcount
    exact List.count_pos_iff.mp (by omega)
  cases hj : index '.' (b ++ '-' :: (rest ++ pad)) with
  | none => exact absurd hm ((index_eq_none_iff _ _).mp hj)
  | some j =>
    obtain ⟨k1, k2⟩ := index_eq_some _ _ _ hj
    have hhead : (split '.' (b ++ '-' :: (rest ++ pad))).headD [] =
        (b ++ '-' :: (rest ++ pad)).take j := by
      conv_lhs => rw [k2]
      rw [split_append_cons _ _ _ k1]
      rfl
    rw [head_split_append_cons_ne '.' '-' b (rest ++ pad) db (by decide)] at hhead
    have hsplit : splitN '.' 3 (a ++ '.' :: (b ++ '-' :: (rest ++ pad))) =
        [a, (b ++ '-' :: (rest ++ pad)).take j, (b ++ '-' :: (rest ++ pad)).drop (j + 1)] := by
      conv_lhs => rw [k2]
      exact splitN_three_of '.' a _ _ da k1
    apply Parse_error_of_minor _ _ _ _ hsplit
    intro hall
    have hmem : '-' ∈ (b ++ '-' :: (rest ++ pad)).take j := by
      rw [← hhead]
      simp
    have := hall '-' hmem
    revert this
    decide

/-! ## The claim on pre-release suffixes -/

/-- C19, as amended: a tag of three numeric components (each without leading
zero and below 2^64), with or without a leading `v`, followed by `-` and
pre-release identifiers joined by dots is accepted by `tagSemVer`; the version
has the three numbers and the identifiers, and the identifiers written out
again are those of the tag.  With two numeric components, or with one, the
padding `.0` lands after the suffix and `tagSemVer` returns an error. -/
theorem tagSemVer_prerelease (a b c : Str) (na nb nc : Nat) (ids : List Str)
    (prs : List PRVersion) (ha : NumericComponent a na) (hb : NumericComponent b nb)
    (hc : NumericComponent c nc) (hne : ids ≠ [])
    (hids : List.Forall₂ PrereleaseIdent ids prs) :
    tagSemVer (a ++ '.' :: (b ++ '.' :: (c ++ '-' :: List.intercalate ['.'] ids))) =
      .ok { Major := na, Minor := nb, Patch := nc, Pre := prs, Build := [] } ∧
    tagSemVer ('v' :: (a ++ '.' :: (b ++ '.' :: (c ++ '-' :: List.intercalate ['.'] ids)))) =
      .ok { Major := na, Minor := nb, Patch := nc, Pre := prs, Build := [] } ∧
    prs.map PRVersion.String = ids ∧
    (∃ e, tagSemVer (a ++ '.' :: (b ++ '-' :: List.intercalate ['.'] ids)) = .error e) ∧
    (∃ e, tagSemVer ('v' :: (a ++ '.' :: (b ++ '-' :: List.intercalate ['.'] ids))) =
      .error e) ∧
    (∃ e, tagSemVer (a ++ '-' :: List.intercalate ['.'] ids) = .error e) ∧
    (∃ e, tagSemVer ('v' :: (a ++ '-' :: List.intercalate ['.'] ids)) = .error e) := by
  have hhead : ∀ rest : Str, (a ++ rest).head? ≠ some 'v' := by
    intro rest
    obtain ⟨h1, h2, -⟩ := ha
    cases a with
    | nil => exact absurd rfl h1
    | cons x xs =>
      intro e
      simp only [List.cons_append, List.head?_cons, Option.some.injEq] at e
      exact (not_mem_numbers_special x (h2 x (by simp))).2.2.2 e
  have htrim : ∀ rest : Str, trimPrefix 'v' (a ++ rest) = a ++ rest :=
    fun rest => trimPrefix_of_head_ne _ (hhead rest)
  have htrimv : ∀ rest : Str, trimPrefix 'v' ('v' :: (a ++ rest)) = a ++ rest := by
    intro rest
    simp [trimPrefix]
  have hpad : padZeros (a ++ '.' :: (b ++ '.' :: (c ++ '-' :: List.intercalate ['.'] ids))) =
      a ++ '.' :: (b ++ '.' :: (c ++ '-' :: List.intercalate ['.'] ids)) := by
    apply padZeros_of_not_lt
    unfold count
    rw [List.count_append, List.count_cons_self, List.count_append, List.count_cons_self]
    omega
  have hparse := Parse_prerelease a b c na nb nc ids prs ha hb hc hne hids
  unfold tagSemVer
  refine ⟨?_, ?_, map_String_of_idents ids prs hids, ?_, ?_, ?_, ?_⟩
  · rw [tagSemVerWith_eq Parse _ _ _ (htrim _) hpad]
    exact hparse
  · rw [tagSemVerWith_eq Parse _ _ _ (htrimv _) hpad]
    exact hparse
  · exact tagSemVerWith_two_components _ a b _ ha.2.1 hb.2.1 (htrim _)
  · exact tagSemVerWith_two_components _ a b _ ha.2.1 hb.2.1 (htrimv _)
  · exact tagSemVerWith_one_component _ a _ ha.2.1 (htrim _)
  · exact tagSemVerWith_one_component _ a _ ha.2.1 (htrimv _)

/-- C19 on the tag `1.2.3-beta.1`: version 1.2.3 with the pre-release
identifiers `beta` and 1. -/
theorem tagSemVer_prerelease_witness :
    tagSemVer "1.2.3-beta.1".toList =
      .ok { Major := 1, Minor := 2, Patch := 3,
            Pre := [⟨"beta".toList, 0, false⟩, ⟨[], 1, true⟩], Build := [] } ∧
    [PRVersion.String ⟨"beta".toList, 0, false⟩, PRVersion.String ⟨[], 1, true⟩] =
      ["beta".toList, "1".toList] :=
  ⟨(tagSemVer_prerelease "1".toList "2".toList "3".toList 1 2 3
      ["beta".toList, "1".toList] [⟨"beta".toList, 0, false⟩, ⟨[], 1, true⟩]
      (by unfold NumericComponent; decide) (by unfold NumericComponent; decide)
      (by unfold NumericComponent; decide) (by decide)
      (List.Forall₂.cons ⟨by decide, by decide, Or.inr ⟨by decide, rfl⟩⟩
        (List.Forall₂.cons
          ⟨by decide, by decide, Or.inl ⟨by decide, by decide, 1, by decide, by decide, rfl⟩⟩
          List.Forall₂.nil))).1,
   (tagSemVer_prerelease "1".toList "2".toList "3".toList 1 2 3
      ["beta".toList, "1".toList] [⟨"beta".toList, 0, false⟩, ⟨[], 1, true⟩]
      (by unfold NumericComponent; decide) (by unfold NumericComponent; decide)
      (by unfold NumericComponent; decide) (by decide)
      (List.Forall₂.cons ⟨by decide, by decide, Or.inr ⟨by decide, rfl⟩⟩
        (List.Forall₂.cons
          ⟨by decide, by decide, Or.inl ⟨by decide, by decide, 1, by decide, by decide, rfl⟩⟩
          List.Forall₂.nil))).2.2.1⟩

/-- C19, counterexample: `1.2-beta` is padded to `1.2-beta.0` and refused for
its minor number `2-beta`; `v1-rc1` is padded to `1-rc1.0.0` and refused for
its major number `1-rc1`. -/
theorem tagSemVer_prerelease_counterexample :
    padZeros "1.2-beta".toList = "1.2-beta.0".toList ∧
    tagSemVer "1.2-beta".toList = .error (.invalidCharacters .minor "2-beta".toList) ∧
    padZeros "1-rc1".toList = "1-rc1.0.0".toList ∧
    tagSemVer "v1-rc1".toList = .error (.invalidCharacters .major "1-rc1".toList) := by
  have p1 : padZeros "1.2-beta".toList = "1.2-beta.0".toList := by
    rw [padZeros_of_lt _ (by decide), padZeros_of_not_lt _ (by decide)]
    rfl
  have p2 : padZeros "1-rc1".toList = "1-rc1.0.0".toList := by
    rw [padZeros_of_lt _ (by decide), padZeros_of_lt _ (by decide),
      padZeros_of_not_lt _ (by decide)]
    rfl
  refine ⟨p1, ?_, p2, ?_⟩
  · unfold tagSemVer
    rw [tagSemVerWith_eq Parse _ "1.2-beta".toList _ (by decide) p1]
    decide
  · unfold tagSemVer
    rw [tagSemVerWith_eq Parse _ "1-rc1".toList _ (by decide) p2]
    decide

/-! ## The round trip of well-formed references -/

/-- C20: when `parseImage` accepts an input with a non-empty repository, a
non-empty namespace, a tag or a digest, and a registry or a namespace without
`:` and `.`, re-parsing the rendering gives the same reference. -/
theorem parseImage_String_well_formed (s : Str) (r : imageName) (h : parseImage s = some r)
    (_h1 : r.repository ≠ []) (h2 : r.namespace_ ≠ []) (h3 : r.tag ≠ [] ∨ r.digest ≠ [])
    (h4 : r.registry ≠ [] ∨ (':' ∉ r.namespace_ ∧ '.' ∉ r.namespace_)) :
    parseImage r.String = some r := by
  obtain ⟨f1, f2, f3, f4, f5, k1, k2, k3⟩ := parseImage_invariants s r h
  apply (parseImage_String_iff r f1 f2 f3 f4 f5 k1 k2 k3).mpr
  refine ⟨h2, h3, ?_⟩
  rcases h4 with e | ⟨e1, e2⟩
  · exact Or.inl e
  · right
    rintro (e | e)
    · exact e1 e
    · exact e2 e

/-- C20 on `myregistry.io:5000/team/app:v2`, which renders to itself. -/
theorem parseImage_String_well_formed_witness :
    parseImage "myregistry.io:5000/team/app:v2".toList =
      some { registry := "myregistry.io:5000".toList, namespace_ := "team".toList,
             repository := "app".toList, tag := "v2".toList, digest := [] } ∧
    imageName.String
        { registry := "myregistry.io:5000".toList, namespace_ := "team".toList,
          repository := "app".toList, tag := "v2".toList, digest := [] } =
      "myregistry.io:5000/team/app:v2".toList ∧
    parseImage (imageName.String
        { registry := "myregistry.io:5000".toList, namespace_ := "team".toList,
          repository := "app".toList, tag := "v2".toList, digest := [] }) =
      some { registry := "myregistry.io:5000".toList, namespace_ := "team".toList,
             repository := "app".toList, tag := "v2".toList, digest := [] } :=
  ⟨by decide, by decide,
   parseImage_String_well_formed "myregistry.io:5000/team/app:v2".toList
      { registry := "myregistry.io:5000".toList, namespace_ := "team".toList,
        repository := "app".toList, tag := "v2".toList, digest := [] }
      (by decide) (by decide) (by decide) (by decide) (by decide)⟩

end KubeUpdateNotifier
